import Mathlib

/-!
# Verification of `generate_markov_text.py`

A shallow embedding of the Markov-chain text generator.  Python strings are
modelled as lists of character code points (`List ℕ`); Python `dict`s are
modelled as insertion-ordered association lists (`List (key × value)`), which
captures both dict lookup/update semantics and the iteration order that the
script relies on.  Python `int` is modelled as `ℤ` where forged inputs can be
negative (the model codec) and as `ℕ` where the surrounding program guarantees
a nonnegative count or length.  Fallible operations (Python exceptions) are
modelled with `Option`/`Except`.
-/

namespace MarkovText

/-- Lookup in a Python dict modelled as an insertion-ordered association
list: returns the value of the first (unique) matching key. -/
def getd {α β : Type} [DecidableEq α] (k : α) : List (α × β) → Option β
  | [] => none
  | (a, b) :: rest => if a = k then some b else getd k rest

/-- Python dict assignment `d[k] = v`: replaces the value in place if the key
is present (keeping its position), otherwise appends the new binding at the
end, exactly as Python dicts preserve insertion order. -/
def setd {α β : Type} [DecidableEq α] (k : α) (v : β) : List (α × β) → List (α × β)
  | [] => [(k, v)]
  | (a, b) :: rest => if a = k then (k, v) :: rest else (a, b) :: setd k v rest

/-- The keys of a dict, in insertion order. -/
def keysd {α β : Type} (l : List (α × β)) : List α := l.map Prod.fst

/-- The keys of a dict are pairwise distinct (Python dict invariant). -/
def nodup_keys {α β : Type} (l : List (α × β)) : Prop :=
  List.Pairwise (fun a b => a.1 ≠ b.1) l

theorem getd_setd {α β : Type} [DecidableEq α] (k k' : α) (v : β) (l : List (α × β)) :
    getd k' (setd k v l) = if k = k' then some v else getd k' l := by
  induction l with
  | nil =>
    by_cases h : k = k' <;> simp [setd, getd, h]
  | cons p rest ih =>
    obtain ⟨a, b⟩ := p
    by_cases hak : a = k
    · subst hak
      by_cases h : a = k' <;> simp [setd, getd, h]
    · by_cases h : a = k'
      · subst h
        have : ¬ k = a := fun hk => hak hk.symm
        simp [setd, getd, hak, this]
      · simp [setd, getd, hak, h, ih]

theorem getd_setd_self {α β : Type} [DecidableEq α] (k : α) (v : β) (l : List (α × β)) :
    getd k (setd k v l) = some v := by
  simp [getd_setd]

theorem getd_setd_ne {α β : Type} [DecidableEq α] {k k' : α} (h : k ≠ k') (v : β)
    (l : List (α × β)) : getd k' (setd k v l) = getd k' l := by
  simp [getd_setd, h]

theorem keysd_nil {α β : Type} : keysd ([] : List (α × β)) = [] := rfl

theorem keysd_cons {α β : Type} (a : α) (b : β) (l : List (α × β)) :
    keysd ((a, b) :: l) = a :: keysd l := rfl

theorem keysd_setd_mem {α β : Type} [DecidableEq α] (k : α) (v : β) (l : List (α × β))
    (h : k ∈ keysd l) : keysd (setd k v l) = keysd l := by
  induction l with
  | nil => simp [keysd_nil] at h
  | cons p rest ih =>
    obtain ⟨a, b⟩ := p
    by_cases hak : a = k
    · simp [setd, keysd_cons, hak]
    · have hmem : k ∈ keysd rest := by
        rw [keysd_cons, List.mem_cons] at h
        rcases h with h' | h'
        · exact absurd h'.symm hak
        · exact h'
      rw [setd, if_neg hak, keysd_cons, keysd_cons, ih hmem]

theorem keysd_setd_not_mem {α β : Type} [DecidableEq α] (k : α) (v : β) (l : List (α × β))
    (h : k ∉ keysd l) : keysd (setd k v l) = keysd l ++ [k] := by
  induction l with
  | nil => simp [setd, keysd]
  | cons p rest ih =>
    obtain ⟨a, b⟩ := p
    rw [keysd_cons] at h
    have hak : a ≠ k := fun hak => h (by simp [hak])
    have hres : k ∉ keysd rest := fun hk => h (List.mem_cons_of_mem _ hk)
    rw [setd, if_neg hak, keysd_cons, keysd_cons, ih hres, List.cons_append]

theorem mem_keysd_iff_getd_isSome {α β : Type} [DecidableEq α] (k : α) (l : List (α × β)) :
    k ∈ keysd l ↔ (getd k l).isSome := by
  induction l with
  | nil => simp [keysd_nil, getd]
  | cons p rest ih =>
    obtain ⟨a, b⟩ := p
    by_cases hak : a = k
    · simp [keysd_cons, getd, hak]
    · have hka : ¬ k = a := fun hk => hak hk.symm
      rw [keysd_cons, List.mem_cons, getd, if_neg hak]
      simp only [hka, false_or]
      exact ih

theorem getd_isSome_of_mem {α β : Type} [DecidableEq α] {p : α × β} {l : List (α × β)}
    (h : p ∈ l) : (getd p.1 l).isSome := by
  induction h with
  | head rest =>
    obtain ⟨a, b⟩ := p
    simp [getd]
  | tail q hmem ih =>
    obtain ⟨a, b⟩ := q
    by_cases hq : a = p.1
    · simp [getd, hq]
    · simp [getd, hq, ih]

theorem getd_of_mem_nodup {α β : Type} [DecidableEq α] {p : α × β} {l : List (α × β)}
    (hn : nodup_keys l) (h : p ∈ l) : getd p.1 l = some p.2 := by
  induction h with
  | head rest =>
    obtain ⟨a, b⟩ := p
    simp [getd]
  | tail q hmem ih =>
    obtain ⟨a, b⟩ := q
    have hne : a ≠ p.1 := by
      have := (List.pairwise_cons.mp hn).1 p hmem
      simpa using this
    have hn' : nodup_keys _ := (List.pairwise_cons.mp hn).2
    simp [getd, hne, ih hn']

theorem mem_of_getd {α β : Type} [DecidableEq α] {k : α} {v : β} {l : List (α × β)} :
    getd k l = some v → (k, v) ∈ l := by
  induction l with
  | nil => intro h; simp [getd] at h
  | cons q rest ih =>
    intro h
    obtain ⟨a, b⟩ := q
    by_cases hak : a = k
    · subst hak
      simp [getd] at h
      simp [h]
    · simp [getd, hak] at h
      exact List.mem_cons_of_mem _ (ih h)

theorem mem_setd {α β : Type} [DecidableEq α] {q : α × β} {k : α} {v : β} {l : List (α × β)} :
    q ∈ setd k v l → q = (k, v) ∨ q ∈ l := by
  induction l with
  | nil => intro h; simpa [setd] using h
  | cons p rest ih =>
    intro h
    obtain ⟨a, b⟩ := p
    by_cases hak : a = k
    · subst hak
      rcases (by simpa [setd] using h : q = (a, v) ∨ q ∈ rest) with h' | h'
      · exact Or.inl h'
      · exact Or.inr (List.mem_cons_of_mem _ h')
    · rcases (by simpa [setd, hak] using h : q = (a, b) ∨ q ∈ setd k v rest) with h' | h'
      · exact Or.inr (by simp [h'])
      · rcases ih h' with h'' | h''
        · exact Or.inl h''
        · exact Or.inr (List.mem_cons_of_mem _ h'')

theorem nodup_keys_setd {α β : Type} [DecidableEq α] (k : α) (v : β) {l : List (α × β)} :
    nodup_keys l → nodup_keys (setd k v l) := by
  induction l with
  | nil => intro _; simp [setd, nodup_keys]
  | cons p rest ih =>
    intro h
    obtain ⟨a, b⟩ := p
    obtain ⟨hhead, htail⟩ := List.pairwise_cons.mp h
    by_cases hak : a = k
    · subst hak
      rw [setd, if_pos rfl]
      refine List.pairwise_cons.mpr ⟨?_, htail⟩
      intro q hq
      exact hhead q hq
    · rw [setd, if_neg hak]
      refine List.pairwise_cons.mpr ⟨?_, ih htail⟩
      intro q hq
      rcases mem_setd hq with h' | h'
      · simpa [h'] using hak
      · exact hhead q h'

/-! ## N-gram counting (`compute_ngram_counts`) -/

/-- Inner dict of `compute_ngram_counts`: following letter (code point) to
occurrence count.  Counts are Python ints, modelled as `ℤ`. -/
abbrev NextLetters := List (ℕ × ℤ)

/-- The n-gram count table: n-gram (list of code points) to its dict of
following letters. -/
abbrev CountTable := List (List ℕ × NextLetters)

/-- The n-gram the source extracts at start position `i`:
`text[i : i + k]` when it fits, otherwise
`text[i : text_length] + text[0 : k - (text_length - i)]`. -/
def scan_ngram (text : List ℕ) (k i : ℕ) : List ℕ :=
  if i + k < text.length then (text.drop i).take k
  else text.drop i ++ text.take (k - (text.length - i))

/-- The letter following the n-gram at start position `i`:
`text[i + k]` when in range, otherwise `text[k - (text_length - i)]`. -/
def scan_next (text : List ℕ) (k i : ℕ) : ℕ :=
  if i + k < text.length then text.getD (i + k) 0
  else text.getD (k - (text.length - i)) 0

/-- One loop iteration of `compute_ngram_counts`: create the inner dict for
`g` if absent, then increment the count of following letter `c` (starting it
at 1 when first seen). -/
def bump (g : List ℕ) (c : ℕ) (tbl : CountTable) : CountTable :=
  let m := (getd g tbl).getD []
  setd g (setd c ((getd c m).getD 0 + 1) m) tbl

/-- The loop body of `compute_ngram_counts` at start position `i`. -/
def count_step (text : List ℕ) (k : ℕ) (tbl : CountTable) (i : ℕ) : CountTable :=
  bump (scan_ngram text k i) (scan_next text k i) tbl

/-- `compute_ngram_counts(text, k)`: raises when the text is shorter than the
n-gram length, otherwise scans every start position of the circular text. -/
def compute_ngram_counts (text : List ℕ) (k : ℕ) : Except String CountTable :=
  if text.length < k then
    Except.error ("Text is too short. Provide more than " ++ toString k ++ " characters")
  else
    Except.ok ((List.range text.length).foldl (count_step text k) [])

/-- The character of `text` at circular position `i` (index taken mod the
text length). -/
def circ_char (text : List ℕ) (i : ℕ) : ℕ := text.getD (i % text.length) 0

/-- The `k` characters of `text` at circular positions `i, i+1, …, i+k-1`. -/
def circ_ngram (text : List ℕ) (k i : ℕ) : List ℕ :=
  (List.range k).map (fun j => circ_char text (i + j))

theorem circ_ngram_length (text : List ℕ) (k i : ℕ) : (circ_ngram text k i).length = k := by
  simp [circ_ngram]

theorem getElem_congr_idx {α : Type} (l : List α) {i j : ℕ} (hij : i = j) (hi : i < l.length)
    (hj : j < l.length) : l.get ⟨i, hi⟩ = l.get ⟨j, hj⟩ := by
  subst hij
  rfl

theorem circ_char_mod (text : List ℕ) (i : ℕ) : circ_char text (i % text.length) = circ_char text i := by
  unfold circ_char
  rw [Nat.mod_mod_of_dvd _ (dvd_refl _)]

theorem circ_ngram_mod (text : List ℕ) (k i : ℕ) :
    circ_ngram text k (i % text.length) = circ_ngram text k i := by
  unfold circ_ngram
  refine List.map_congr_left ?_
  intro j _
  simp [circ_char, Nat.mod_add_mod]

/-- The source's branchy slice arithmetic extracts exactly the circular
window: claim C5's core identity for the extracted n-gram. -/
theorem scan_ngram_eq_circ (text : List ℕ) (k i : ℕ) (hk : k ≤ text.length)
    (hi : i < text.length) : scan_ngram text k i = circ_ngram text k i := by
  set L := text.length with hL
  unfold scan_ngram
  by_cases hfit : i + k < L
  · rw [if_pos hfit]
    apply List.ext_getElem
    · simp [circ_ngram_length]
      omega
    · intro j hj hj'
      rw [circ_ngram_length] at hj'
      have hij : i + j < L := by
        simp at hj
        omega
      simp only [circ_ngram, circ_char]
      rw [List.getElem_take, List.getElem_drop]
      rw [List.getElem_map, List.getElem_range]
      rw [Nat.mod_eq_of_lt hij, List.getD_eq_getElem _ _ hij]
  · rw [if_neg hfit]
    apply List.ext_getElem
    · simp [circ_ngram_length]
      omega
    · intro j hj hj'
      rw [circ_ngram_length] at hj'
      simp only [circ_ngram, circ_char]
      rw [List.getElem_map, List.getElem_range]
      by_cases hjs : j < L - i
      · rw [List.getElem_append_left (by simpa using hjs)]
        have hij : i + j < L := by omega
        rw [List.getElem_drop, Nat.mod_eq_of_lt hij, List.getD_eq_getElem _ _ hij]
      · have hlen : (text.drop i).length = L - i := by simp
        have h2 : L ≤ i + j := by omega
        have hwrap : (i + j) % L = j - (L - i) := by
          have : (i + j) % L = i + j - L := by
            rw [Nat.mod_eq_sub_mod h2, Nat.mod_eq_of_lt (by omega)]
          omega
        have hL0 : 0 < L := by omega
        have hmodlt : (i + j) % text.length < text.length := Nat.mod_lt _ hL0
        have hidx : j - (text.drop i).length = (i + j) % text.length := by
          rw [hlen, hwrap]
        rw [List.getElem_append_right (by omega), List.getElem_take]
        rw [List.getD_eq_getElem _ _ hmodlt]
        exact getElem_congr_idx text hidx _ _

/-- The source's following-letter arithmetic picks exactly the character at
circular position `i + k`: claim C5's core identity for the successor. -/
theorem scan_next_eq_circ (text : List ℕ) (k i : ℕ) (hk : k ≤ text.length)
    (hi : i < text.length) : scan_next text k i = circ_char text (i + k) := by
  set L := text.length with hL
  unfold scan_next
  by_cases hfit : i + k < L
  · rw [if_pos hfit, circ_char, Nat.mod_eq_of_lt hfit]
  · rw [if_neg hfit, circ_char]
    have h2 : L ≤ i + k := by omega
    have : (i + k) % L = i + k - L := by
      rw [Nat.mod_eq_sub_mod h2, Nat.mod_eq_of_lt (by omega)]
    rw [this]
    congr 1
    omega

/-! ## Count-table bookkeeping -/

/-- The count stored for `(g, c)` (0 when absent). -/
def pair_count (tbl : CountTable) (g : List ℕ) (c : ℕ) : ℤ :=
  ((getd g tbl).bind (getd c)).getD 0

/-- `(g, c)` has an entry in the table. -/
def table_mem (tbl : CountTable) (g : List ℕ) (c : ℕ) : Prop :=
  ∃ m, getd g tbl = some m ∧ (getd c m).isSome

/-- Sum of the successor counts of one n-gram. -/
def inner_total (m : NextLetters) : ℤ := (m.map Prod.snd).sum

/-- Total number of recorded (n-gram, successor) observations. -/
def table_total (tbl : CountTable) : ℤ := (tbl.map (fun gm => inner_total gm.2)).sum

/-- Well-formedness of a count table as produced by the counting scan:
distinct keys inside and out, nonempty successor dicts, positive counts. -/
def wf_table (tbl : CountTable) : Prop :=
  nodup_keys tbl ∧ ∀ gm ∈ tbl, nodup_keys gm.2 ∧ gm.2 ≠ [] ∧ ∀ lc ∈ gm.2, 1 ≤ lc.2

theorem pair_count_bump_self (g : List ℕ) (c : ℕ) (tbl : CountTable) :
    pair_count (bump g c tbl) g c = pair_count tbl g c + 1 := by
  unfold pair_count bump
  rw [getd_setd_self]
  cases hg : getd g tbl with
  | none => simp [hg, getd_setd_self, getd]
  | some m =>
    cases hc : getd c m with
    | none => simp [hg, hc, getd_setd_self]
    | some v => simp [hg, hc, getd_setd_self]

theorem pair_count_bump_ne (g : List ℕ) (c : ℕ) (tbl : CountTable) (g' : List ℕ) (c' : ℕ)
    (h : ¬(g' = g ∧ c' = c)) : pair_count (bump g c tbl) g' c' = pair_count tbl g' c' := by
  unfold pair_count bump
  by_cases hgg : g = g'
  · subst hgg
    have hcc : c ≠ c' := fun hc => h ⟨rfl, hc.symm⟩
    rw [getd_setd_self]
    cases hg : getd g tbl with
    | none => simp [hg, getd_setd_ne hcc, getd, hcc]
    | some m => simp [hg, getd_setd_ne hcc]
  · rw [getd_setd_ne hgg]

theorem table_mem_bump (g : List ℕ) (c : ℕ) (tbl : CountTable) (g' : List ℕ) (c' : ℕ) :
    table_mem (bump g c tbl) g' c' ↔ (g' = g ∧ c' = c) ∨ table_mem tbl g' c' := by
  unfold table_mem bump
  by_cases hgg : g = g'
  · subst hgg
    rw [getd_setd_self]
    constructor
    · rintro ⟨m, hm, hc⟩
      obtain rfl : setd c ((getd c ((getd g tbl).getD [])).getD 0 + 1) ((getd g tbl).getD []) = m :=
        by injection hm
      rw [getd_setd] at hc
      by_cases hcc : c = c'
      · exact Or.inl ⟨rfl, hcc.symm⟩
      · rw [if_neg hcc] at hc
        cases hg : getd g tbl with
        | none => rw [hg] at hc; simp [getd] at hc
        | some m₀ =>
          rw [hg] at hc
          exact Or.inr ⟨m₀, rfl, by simpa using hc⟩
    · rintro (⟨_, rfl⟩ | ⟨m, hm, hc⟩)
      · exact ⟨_, rfl, by rw [getd_setd_self]; rfl⟩
      · refine ⟨_, rfl, ?_⟩
        rw [getd_setd]
        by_cases hcc : c = c'
        · simp [hcc]
        · rw [if_neg hcc, hm]
          simpa using hc
  · rw [getd_setd_ne hgg]
    constructor
    · rintro ⟨m, hm, hc⟩
      exact Or.inr ⟨m, hm, hc⟩
    · rintro (⟨hg, _⟩ | hmem)
      · exact absurd hg.symm hgg
      · exact hmem

theorem inner_total_setd (c : ℕ) (w : ℤ) (m : NextLetters) :
    inner_total (setd c w m) =
      inner_total m - ((getd c m).map id).getD 0 + w := by
  induction m with
  | nil => simp [setd, inner_total, getd]
  | cons p rest ih =>
    obtain ⟨a, b⟩ := p
    by_cases hac : a = c
    · subst hac
      simp [setd, inner_total, getd]
      ring
    · simp only [setd, if_neg hac, inner_total, List.map_cons, List.sum_cons, getd]
      simp only [inner_total] at ih
      rw [ih]
      ring

theorem table_total_setd (g : List ℕ) (m' : NextLetters) (tbl : CountTable) :
    table_total (setd g m' tbl) =
      table_total tbl - (((getd g tbl).map inner_total).getD 0) + inner_total m' := by
  induction tbl with
  | nil => simp [setd, table_total, getd]
  | cons p rest ih =>
    obtain ⟨a, b⟩ := p
    by_cases hag : a = g
    · subst hag
      simp [setd, table_total, getd]
      ring
    · simp only [setd, if_neg hag, table_total, List.map_cons, List.sum_cons, getd, if_neg hag]
      simp only [table_total] at ih
      rw [ih]
      ring

theorem table_total_bump (g : List ℕ) (c : ℕ) (tbl : CountTable) :
    table_total (bump g c tbl) = table_total tbl + 1 := by
  unfold bump
  rw [table_total_setd, inner_total_setd]
  cases hg : getd g tbl with
  | none => simp [inner_total, getd]
  | some m =>
    simp only [Option.map_some, Option.getD_some, Option.getD_none]
    cases hc : getd c m with
    | none => simp; ring
    | some v => simp; ring

theorem setd_ne_nil {α β : Type} [DecidableEq α] (k : α) (v : β) (l : List (α × β)) :
    setd k v l ≠ [] := by
  cases l with
  | nil => simp [setd]
  | cons p rest =>
    obtain ⟨a, b⟩ := p
    by_cases hak : a = k <;> simp [setd, hak]

theorem wf_table_bump (g : List ℕ) (c : ℕ) {tbl : CountTable} (h : wf_table tbl) :
    wf_table (bump g c tbl) := by
  obtain ⟨hnd, hent⟩ := h
  refine ⟨nodup_keys_setd _ _ hnd, ?_⟩
  intro gm hgm
  rcases mem_setd hgm with hq | hq
  · subst hq
    set m := (getd g tbl).getD [] with hm
    have hmprops : nodup_keys m ∧ ∀ lc ∈ m, 1 ≤ lc.2 := by
      cases hg : getd g tbl with
      | none => simp [hm, hg, nodup_keys]
      | some m₀ =>
        have := hent (g, m₀) (mem_of_getd hg)
        simp only [hm, hg, Option.getD_some]
        exact ⟨this.1, this.2.2⟩
    refine ⟨nodup_keys_setd _ _ hmprops.1, setd_ne_nil _ _ _, ?_⟩
    intro lc hlc
    rcases mem_setd hlc with hl | hl
    · subst hl
      cases hc : getd c m with
      | none => simp [hc]
      | some v =>
        have : 1 ≤ v := hmprops.2 (c, v) (mem_of_getd hc)
        simp [hc]
        omega
    · exact hmprops.2 lc hl
  · exact hent gm hq

/-! ### Facts about the counting fold -/

theorem fold_table_total (text : List ℕ) (k : ℕ) (is : List ℕ) (tbl : CountTable) :
    table_total (is.foldl (count_step text k) tbl) = table_total tbl + is.length := by
  induction is generalizing tbl with
  | nil => simp
  | cons i rest ih =>
    simp only [List.foldl_cons, List.length_cons]
    rw [ih, count_step, table_total_bump]
    push_cast
    ring

theorem fold_wf (text : List ℕ) (k : ℕ) (is : List ℕ) {tbl : CountTable} (h : wf_table tbl) :
    wf_table (is.foldl (count_step text k) tbl) := by
  induction is generalizing tbl with
  | nil => simpa
  | cons i rest ih =>
    simp only [List.foldl_cons]
    exact ih (wf_table_bump _ _ h)

theorem fold_table_mem (text : List ℕ) (k : ℕ) (is : List ℕ) (tbl : CountTable)
    (g : List ℕ) (c : ℕ) :
    table_mem (is.foldl (count_step text k) tbl) g c ↔
      table_mem tbl g c ∨ ∃ i ∈ is, scan_ngram text k i = g ∧ scan_next text k i = c := by
  induction is generalizing tbl with
  | nil => simp
  | cons i rest ih =>
    simp only [List.foldl_cons, List.mem_cons]
    rw [ih, count_step, table_mem_bump]
    constructor
    · rintro ((⟨rfl, rfl⟩ | hm) | ⟨i', hi', hs⟩)
      · exact Or.inr ⟨i, Or.inl rfl, rfl, rfl⟩
      · exact Or.inl hm
      · exact Or.inr ⟨i', Or.inr hi', hs⟩
    · rintro (hm | ⟨i', hi' | hi', hs⟩)
      · exact Or.inl (Or.inr hm)
      · subst hi'
        exact Or.inl (Or.inl ⟨hs.1.symm, hs.2.symm⟩)
      · exact Or.inr ⟨i', hi', hs⟩

theorem wf_table_nil : wf_table [] := by
  constructor
  · simp [nodup_keys]
  · intro gm hgm
    simp at hgm

/-! ### The computed table, characterized by the circular view -/

theorem compute_ok_elim {text : List ℕ} {k : ℕ} {tbl : CountTable}
    (hok : compute_ngram_counts text k = Except.ok tbl) :
    k ≤ text.length ∧ tbl = (List.range text.length).foldl (count_step text k) [] := by
  unfold compute_ngram_counts at hok
  by_cases h : text.length < k
  · rw [if_pos h] at hok
    cases hok
  · rw [if_neg h] at hok
    injection hok with h'
    exact ⟨by omega, h'.symm⟩

theorem table_mem_nil (g : List ℕ) (c : ℕ) : ¬ table_mem [] g c := by
  rintro ⟨m, hm, _⟩
  simp [getd] at hm

theorem compute_table_mem {text : List ℕ} {k : ℕ} {tbl : CountTable}
    (hok : compute_ngram_counts text k = Except.ok tbl) (g : List ℕ) (c : ℕ) :
    table_mem tbl g c ↔
      ∃ i < text.length, circ_ngram text k i = g ∧ circ_char text (i + k) = c := by
  obtain ⟨hk, rfl⟩ := compute_ok_elim hok
  rw [fold_table_mem]
  constructor
  · rintro (hmem | ⟨i, hi, hs⟩)
    · exact absurd hmem (table_mem_nil g c)
    · rw [List.mem_range] at hi
      rw [scan_ngram_eq_circ text k i hk hi, scan_next_eq_circ text k i hk hi] at hs
      exact ⟨i, hi, hs⟩
  · rintro ⟨i, hi, hs⟩
    refine Or.inr ⟨i, List.mem_range.mpr hi, ?_⟩
    rw [scan_ngram_eq_circ text k i hk hi, scan_next_eq_circ text k i hk hi]
    exact hs

theorem compute_wf {text : List ℕ} {k : ℕ} {tbl : CountTable}
    (hok : compute_ngram_counts text k = Except.ok tbl) : wf_table tbl := by
  obtain ⟨_, rfl⟩ := compute_ok_elim hok
  exact fold_wf _ _ _ wf_table_nil

theorem table_mem_of_key {tbl : CountTable} (hwf : wf_table tbl) {g : List ℕ}
    (hg : g ∈ keysd tbl) : ∃ c, table_mem tbl g c := by
  rw [mem_keysd_iff_getd_isSome] at hg
  obtain ⟨m, hm⟩ := Option.isSome_iff_exists.mp hg
  have hgm := hwf.2 (g, m) (mem_of_getd hm)
  obtain ⟨lc, hlc⟩ := List.exists_mem_of_ne_nil m hgm.2.1
  exact ⟨lc.1, m, hm, getd_isSome_of_mem hlc⟩

theorem key_of_table_mem {tbl : CountTable} {g : List ℕ} {c : ℕ}
    (h : table_mem tbl g c) : g ∈ keysd tbl := by
  obtain ⟨m, hm, _⟩ := h
  rw [mem_keysd_iff_getd_isSome, hm]
  rfl

theorem compute_keys {text : List ℕ} {k : ℕ} {tbl : CountTable}
    (hok : compute_ngram_counts text k = Except.ok tbl) (g : List ℕ) :
    g ∈ keysd tbl ↔ ∃ i < text.length, circ_ngram text k i = g := by
  constructor
  · intro hg
    obtain ⟨c, hc⟩ := table_mem_of_key (compute_wf hok) hg
    obtain ⟨i, hi, hs⟩ := (compute_table_mem hok g c).mp hc
    exact ⟨i, hi, hs.1⟩
  · rintro ⟨i, hi, hg⟩
    have hk := (compute_ok_elim hok).1
    have hnext : circ_char text (i + k) = circ_char text (i + k) := rfl
    exact key_of_table_mem ((compute_table_mem hok g _).mpr ⟨i, hi, hg, hnext⟩)

theorem circ_ngram_cons (text : List ℕ) (k i : ℕ) :
    circ_ngram text (k + 1) i = circ_char text i :: circ_ngram text k (i + 1) := by
  unfold circ_ngram
  rw [List.range_succ_eq_map]
  simp only [List.map_cons, Nat.add_zero, List.map_map]
  congr 1
  apply List.map_congr_left
  intro j _
  simp only [Function.comp_apply]
  congr 1
  omega

theorem circ_ngram_snoc (text : List ℕ) (k i : ℕ) :
    circ_ngram text (k + 1) i = circ_ngram text k i ++ [circ_char text (i + k)] := by
  unfold circ_ngram
  rw [List.range_succ]
  simp

/-- The sliding-window successor of a circular window is the circular window
one position later. -/
theorem circ_ngram_slide (text : List ℕ) (k i : ℕ) (hk : 1 ≤ k) :
    (circ_ngram text k i).drop 1 ++ [circ_char text (i + k)] = circ_ngram text k (i + 1) := by
  obtain ⟨k', rfl⟩ : ∃ k', k = k' + 1 := ⟨k - 1, by omega⟩
  rw [circ_ngram_cons]
  simp only [List.drop_succ_cons, List.drop_zero]
  have : i + (k' + 1) = (i + 1) + k' := by omega
  rw [this, ← circ_ngram_snoc]

/-- Key-closure of computed tables: the successor n-gram of any recorded
(n-gram, letter) pair is itself a key of the table. -/
theorem compute_closure {text : List ℕ} {k : ℕ} {tbl : CountTable}
    (hok : compute_ngram_counts text k = Except.ok tbl) (hk : 1 ≤ k)
    {g : List ℕ} {c : ℕ} (h : table_mem tbl g c) :
    g.drop 1 ++ [c] ∈ keysd tbl := by
  obtain ⟨i, hi, hg, hc⟩ := (compute_table_mem hok g c).mp h
  have hL : 0 < text.length := by omega
  rw [compute_keys hok]
  refine ⟨(i + 1) % text.length, Nat.mod_lt _ hL, ?_⟩
  rw [circ_ngram_mod, ← circ_ngram_slide text k i hk, hg, hc]

/-! ## Claims C2, C5, C8 -/

/-- Claim C2: for every source text `T` and positive `k` with `len(T) ≥ k`,
the table returned by `compute_ngram_counts(T, k)` has a total
successor-count sum, over all n-grams and their successor letters, equal to
exactly `len(T)`. -/
theorem claim_C2_total_count (text : List ℕ) (k : ℕ) (tbl : CountTable) (hk : 1 ≤ k)
    (hok : compute_ngram_counts text k = Except.ok tbl) :
    table_total tbl = text.length := by
  obtain ⟨_, rfl⟩ := compute_ok_elim hok
  rw [fold_table_total]
  simp [table_total]

theorem claim_C2_witness :
    1 ≤ 1 ∧ compute_ngram_counts [97, 98, 97, 98] 1 = Except.ok
      [([97], [(98, 2)]), ([98], [(97, 2)])] ∧
    table_total [([97], [(98, 2)]), ([98], [(97, 2)])] = ([97, 98, 97, 98] : List ℕ).length :=
  ⟨le_refl 1, by rfl,
    claim_C2_total_count [97, 98, 97, 98] 1 _ (le_refl 1) (by rfl)⟩

/-- Claim C5: for every text with `len(T) ≥ k` and every start position
`i < len(T)`, the scan records exactly one observation at position `i`: its
n-gram is the circular window of `k` characters starting at `i`, its
following character is the character at circular position `i + k`, the loop
body increments that pair's count by exactly one and leaves every other
pair's count unchanged. -/
theorem claim_C5_circular_scan (text : List ℕ) (k i : ℕ) (hk : k ≤ text.length)
    (hi : i < text.length) :
    scan_ngram text k i = circ_ngram text k i ∧
    scan_next text k i = circ_char text (i + k) ∧
    ∀ tbl : CountTable,
      pair_count (count_step text k tbl i) (circ_ngram text k i) (circ_char text (i + k)) =
        pair_count tbl (circ_ngram text k i) (circ_char text (i + k)) + 1 ∧
      ∀ g c, ¬(g = circ_ngram text k i ∧ c = circ_char text (i + k)) →
        pair_count (count_step text k tbl i) g c = pair_count tbl g c := by
  have hng := scan_ngram_eq_circ text k i hk hi
  have hnx := scan_next_eq_circ text k i hk hi
  refine ⟨hng, hnx, ?_⟩
  intro tbl
  constructor
  · rw [count_step, hng, hnx]
    exact pair_count_bump_self _ _ _
  · intro g c hgc
    rw [count_step, hng, hnx]
    exact pair_count_bump_ne _ _ _ _ _ hgc

theorem claim_C5_witness :
    (2 ≤ ([97, 98] : List ℕ).length ∧ 1 < ([97, 98] : List ℕ).length) ∧
    scan_ngram [97, 98] 2 1 = circ_ngram [97, 98] 2 1 ∧
    scan_next [97, 98] 2 1 = circ_char [97, 98] (1 + 2) := by
  have h := claim_C5_circular_scan [97, 98] 2 1 (by decide) (by decide)
  exact ⟨⟨by decide, by decide⟩, h.1, h.2.1⟩

/-- Claim C8: `compute_ngram_counts(T, k)` fails with the too-short error
exactly when `len(T) < k`, with a message naming `k`; for `len(T) ≥ k`
(including equality) it succeeds with a table. -/
theorem claim_C8_short_input (text : List ℕ) (k : ℕ) (hk : 1 ≤ k) :
    (text.length < k →
      compute_ngram_counts text k =
        Except.error ("Text is too short. Provide more than " ++ toString k ++ " characters")) ∧
    (k ≤ text.length → ∃ tbl, compute_ngram_counts text k = Except.ok tbl) := by
  constructor
  · intro h
    unfold compute_ngram_counts
    rw [if_pos h]
  · intro h
    unfold compute_ngram_counts
    rw [if_neg (by omega)]
    exact ⟨_, rfl⟩

theorem claim_C8_witness :
    (1 ≤ 5 ∧ ([97, 98] : List ℕ).length < 5 ∧
      compute_ngram_counts [97, 98] 5 =
        Except.error "Text is too short. Provide more than 5 characters") ∧
    (1 ≤ 2 ∧ 2 ≤ ([97, 98] : List ℕ).length ∧
      ∃ tbl, compute_ngram_counts [97, 98] 2 = Except.ok tbl) := by
  refine ⟨⟨by decide, by decide, ?_⟩, ⟨by decide, by decide, ?_⟩⟩
  · have h := (claim_C8_short_input [97, 98] 5 (by decide)).1 (by decide)
    simpa using h
  · exact (claim_C8_short_input [97, 98] 2 (by decide)).2 (by decide)

/-! ## The Markov chain graph (`MarkovChainNode`, `build_markov_chain`)

A Python `MarkovChainNode` holds direct references to successor node
objects; nodes are in bijection with their n-grams through the `chain_nodes`
dict, so the embedding stores the successor's n-gram (its dict key) in each
edge and the graph resolves keys to nodes.  An edge is a
(target n-gram, probability) pair; probabilities are exact rationals
modelling Python floats' intended values. -/

structure MarkovChainNode where
  ngram : List ℕ
  next_states : List (List ℕ × ℚ)
deriving DecidableEq

/-- One edge of a node: target n-gram and transition probability. -/
abbrev Edge := List ℕ × ℚ

/-- The chain graph: dict from n-gram to its node. -/
abbrev Chain := List (List ℕ × MarkovChainNode)

/-- Insertion step of a stable descending insertion sort: the inserted
element goes in front of the first element whose probability is at most its
own.  Folded from the right over a list this is a stable sort by descending
probability, which is exactly what Python's stable
`sort(key=probability, reverse=True)` computes (a stable sort's output is
uniquely determined by the order and the stability requirement). -/
def insert_sorted (p : Edge) : List Edge → List Edge
  | [] => [p]
  | q :: rest => if q.2 ≤ p.2 then p :: q :: rest else q :: insert_sorted p rest

/-- Stable sort by descending probability, modelling
`next_states.sort(key = pair[1], reverse = True)`. -/
def sort_desc (l : List Edge) : List Edge := l.foldr insert_sorted []

/-- `MarkovChainNode.add_next_state`: append the new edge, then re-sort the
edge list by descending probability (stable). -/
def add_next_state (node : MarkovChainNode) (tgt : List ℕ) (prob : ℚ) : MarkovChainNode :=
  { node with next_states := sort_desc (node.next_states ++ [(tgt, prob)]) }

/-- Edges are sorted by weakly descending probability. -/
def sorted_desc (l : List Edge) : Prop := List.Pairwise (fun a b => b.2 ≤ a.2) l

theorem mem_insert_sorted {y p : Edge} {l : List Edge} :
    y ∈ insert_sorted p l → y = p ∨ y ∈ l := by
  induction l with
  | nil => intro h; simpa [insert_sorted] using h
  | cons q rest ih =>
    intro h
    by_cases hq : q.2 ≤ p.2
    · rw [insert_sorted, if_pos hq, List.mem_cons] at h
      rcases h with h | h
      · exact Or.inl h
      · exact Or.inr h
    · rw [insert_sorted, if_neg hq, List.mem_cons] at h
      rcases h with h | h
      · exact Or.inr (by simp [h])
      · rcases ih h with h' | h'
        · exact Or.inl h'
        · exact Or.inr (List.mem_cons_of_mem _ h')

theorem sorted_desc_insert {p : Edge} {l : List Edge} :
    sorted_desc l → sorted_desc (insert_sorted p l) := by
  induction l with
  | nil => intro _; simp [insert_sorted, sorted_desc]
  | cons q rest ih =>
    intro h
    obtain ⟨hhead, htail⟩ := List.pairwise_cons.mp h
    by_cases hq : q.2 ≤ p.2
    · rw [insert_sorted, if_pos hq]
      refine List.pairwise_cons.mpr ⟨?_, h⟩
      intro y hy
      rw [List.mem_cons] at hy
      rcases hy with hy | hy
      · exact hy ▸ hq
      · exact le_trans (hhead y hy) hq
    · rw [insert_sorted, if_neg hq]
      refine List.pairwise_cons.mpr ⟨?_, ih htail⟩
      intro y hy
      rcases mem_insert_sorted hy with hy' | hy'
      · subst hy'
        exact le_of_lt (lt_of_not_le hq)
      · exact hhead y hy'

theorem sorted_sort_desc (l : List Edge) : sorted_desc (sort_desc l) := by
  induction l with
  | nil => simp [sort_desc, sorted_desc]
  | cons p rest ih => exact sorted_desc_insert ih

theorem perm_insert_sorted (p : Edge) (l : List Edge) :
    List.Perm (insert_sorted p l) (p :: l) := by
  induction l with
  | nil => simp [insert_sorted]
  | cons q rest ih =>
    by_cases hq : q.2 ≤ p.2
    · rw [insert_sorted, if_pos hq]
    · rw [insert_sorted, if_neg hq]
      exact List.Perm.trans (List.Perm.cons q ih) (List.Perm.swap p q rest)

theorem perm_sort_desc (l : List Edge) : List.Perm (sort_desc l) l := by
  induction l with
  | nil => simp [sort_desc]
  | cons p rest ih =>
    have h1 : List.Perm (sort_desc (p :: rest)) (p :: sort_desc rest) :=
      perm_insert_sorted p (sort_desc rest)
    exact List.Perm.trans h1 (List.Perm.cons p ih)

theorem sum_sort_desc (l : List Edge) :
    ((sort_desc l).map Prod.snd).sum = (l.map Prod.snd).sum :=
  ((perm_sort_desc l).map Prod.snd).sum_eq

theorem mem_sort_desc {q : Edge} {l : List Edge} : q ∈ sort_desc l ↔ q ∈ l :=
  (perm_sort_desc l).mem_iff

/-- Spec-side insertion: the new edge goes after every already-present edge
of probability at least its own (descending order, insertion order kept for
equal probabilities). -/
def insert_last (x : Edge) : List Edge → List Edge
  | [] => [x]
  | q :: rest => if x.2 ≤ q.2 then q :: insert_last x rest else x :: q :: rest

/-- Spec-side stable descending sort: insert the edges one by one, each
after all earlier edges of probability ≥ its own.  This realizes "sorted by
descending probability, ties kept in insertion order" directly. -/
def stable_sorted_desc (xs : List Edge) : List Edge :=
  xs.foldl (fun es x => insert_last x es) []

theorem mem_insert_last {y x : Edge} {l : List Edge} :
    y ∈ insert_last x l → y = x ∨ y ∈ l := by
  induction l with
  | nil => intro h; simpa [insert_last] using h
  | cons q rest ih =>
    intro h
    by_cases hq : x.2 ≤ q.2
    · rw [insert_last, if_pos hq, List.mem_cons] at h
      rcases h with h | h
      · exact Or.inr (by simp [h])
      · rcases ih h with h' | h'
        · exact Or.inl h'
        · exact Or.inr (List.mem_cons_of_mem _ h')
    · rw [insert_last, if_neg hq, List.mem_cons] at h
      rcases h with h | h
      · exact Or.inl h
      · exact Or.inr h

theorem sorted_desc_insert_last {x : Edge} {l : List Edge} :
    sorted_desc l → sorted_desc (insert_last x l) := by
  induction l with
  | nil => intro _; simp [insert_last, sorted_desc]
  | cons q rest ih =>
    intro h
    obtain ⟨hhead, htail⟩ := List.pairwise_cons.mp h
    by_cases hq : x.2 ≤ q.2
    · rw [insert_last, if_pos hq]
      refine List.pairwise_cons.mpr ⟨?_, ih htail⟩
      intro y hy
      rcases mem_insert_last hy with hy' | hy'
      · exact hy' ▸ hq
      · exact hhead y hy'
    · rw [insert_last, if_neg hq]
      refine List.pairwise_cons.mpr ⟨?_, h⟩
      intro y hy
      have hxq : q.2 ≤ x.2 := le_of_lt (lt_of_not_le hq)
      rw [List.mem_cons] at hy
      rcases hy with hy | hy
      · exact hy ▸ hxq
      · exact le_trans (hhead y hy) hxq

theorem insert_sorted_front {q : Edge} {l : List Edge} (h : ∀ y ∈ l, y.2 ≤ q.2) :
    insert_sorted q l = q :: l := by
  cases l with
  | nil => rfl
  | cons y ys => rw [insert_sorted, if_pos (h y (List.mem_cons_self y ys))]

theorem insert_last_front {x : Edge} {l : List Edge} (h : ∀ y ∈ l, y.2 < x.2) :
    insert_last x l = x :: l := by
  cases l with
  | nil => rfl
  | cons y ys =>
    rw [insert_last, if_neg (not_le_of_lt (h y (List.mem_cons_self y ys)))]

/-- Appending a new element to an already sorted list and stable-sorting
(the body of `add_next_state`) is the same as inserting it after all
elements of probability ≥ its own. -/
theorem sort_desc_append_single {l : List Edge} (x : Edge) (h : sorted_desc l) :
    sort_desc (l ++ [x]) = insert_last x l := by
  rw [sort_desc, List.foldr_append]
  have hbase : List.foldr insert_sorted [] [x] = [x] := rfl
  rw [hbase]
  induction l with
  | nil => rfl
  | cons q rest ih =>
    obtain ⟨hhead, htail⟩ := List.pairwise_cons.mp h
    rw [List.foldr_cons, ih htail]
    by_cases hq : x.2 ≤ q.2
    · rw [insert_last, if_pos hq]
      apply insert_sorted_front
      intro y hy
      rcases mem_insert_last hy with hy' | hy'
      · exact hy' ▸ hq
      · exact hhead y hy'
    · have hlt : ∀ y ∈ rest, y.2 < x.2 :=
        fun y hy => lt_of_le_of_lt (hhead y hy) (lt_of_not_le hq)
      rw [insert_last, if_neg hq, insert_last_front hlt]
      rw [insert_sorted, if_neg (not_le_of_lt (lt_of_not_le hq))]
      congr 1
      apply insert_sorted_front
      intro y hy
      exact hhead y hy

/-- Repeatedly appending-and-sorting builds exactly the stable descending
sort of the insertion sequence. -/
theorem fold_sort_collapse (xs : List Edge) :
    ∀ acc, sorted_desc acc →
      xs.foldl (fun es x => sort_desc (es ++ [x])) acc =
        xs.foldl (fun es x => insert_last x es) acc := by
  induction xs with
  | nil => intro acc _; rfl
  | cons x rest ih =>
    intro acc hacc
    simp only [List.foldl_cons]
    rw [sort_desc_append_single x hacc]
    exact ih _ (sorted_desc_insert_last hacc)

/-- One inner-loop iteration of `build_markov_chain`: look up the node for
the sliding-window successor n-gram (Python raises `KeyError` when it is
absent — the spec's `MissingStateError`), compute `count / weight` (Python
raises `ZeroDivisionError` on a zero weight), and add the edge to `g`'s
node. -/
def wire_edge (g : List ℕ) (w : ℤ) (chain : Chain) (lc : ℕ × ℤ) : Option Chain :=
  match getd (g.drop 1 ++ [lc.1]) chain with
  | none => none
  | some _ =>
    if w = 0 then none
    else
      match getd g chain with
      | none => none
      | some node =>
        some (setd g (add_next_state node (g.drop 1 ++ [lc.1]) (Rat.divInt lc.2 w)) chain)

/-- Second-pass body of `build_markov_chain` for one table entry: compute
the entry's total weight, then wire one edge per successor letter. -/
def wire_node (chain : Chain) (gm : List ℕ × NextLetters) : Option Chain :=
  gm.2.foldlM (wire_edge gm.1 (inner_total gm.2)) chain

/-- `build_markov_chain`: first pass creates one empty node per n-gram,
second pass wires all edges, failing if a successor n-gram has no node. -/
def build_markov_chain (ngrams : CountTable) : Option Chain :=
  ngrams.foldlM wire_node (ngrams.map (fun gm => (gm.1, MarkovChainNode.mk gm.1 [])))

/-- The insertion sequence of edges for one table entry, in dict order. -/
def edge_insertions (g : List ℕ) (m : NextLetters) : List Edge :=
  m.map (fun lc => (g.drop 1 ++ [lc.1], Rat.divInt lc.2 (inner_total m)))

theorem setd_getd_id {α β : Type} [DecidableEq α] {k : α} {v : β} {l : List (α × β)} :
    getd k l = some v → setd k v l = l := by
  induction l with
  | nil => intro h; simp [getd] at h
  | cons p rest ih =>
    intro h
    obtain ⟨a, b⟩ := p
    by_cases hak : a = k
    · subst hak
      rw [getd, if_pos rfl] at h
      injection h with h
      rw [setd, if_pos rfl, h]
    · rw [getd, if_neg hak] at h
      rw [setd, if_neg hak, ih h]

theorem fold_add_next_state_ngram (m : NextLetters) (t : ℕ × ℤ → List ℕ) (p : ℕ × ℤ → ℚ)
    (node : MarkovChainNode) :
    (m.foldl (fun nd lc => add_next_state nd (t lc) (p lc)) node).ngram = node.ngram := by
  induction m generalizing node with
  | nil => rfl
  | cons lc rest ih =>
    simp only [List.foldl_cons]
    rw [ih]
    rfl

theorem fold_add_next_state_states (m : NextLetters) (t : ℕ × ℤ → List ℕ) (p : ℕ × ℤ → ℚ)
    (node : MarkovChainNode) :
    (m.foldl (fun nd lc => add_next_state nd (t lc) (p lc)) node).next_states =
      (m.map (fun lc => ((t lc, p lc) : Edge))).foldl
        (fun es x => sort_desc (es ++ [x])) node.next_states := by
  induction m generalizing node with
  | nil => rfl
  | cons lc rest ih =>
    simp only [List.foldl_cons, List.map_cons]
    rw [ih]
    rfl

/-- The node accumulated for key `g` after wiring all of entry `m`'s edges:
n-gram unchanged, edge list equal to the stable descending sort of the
insertion sequence. -/
theorem fold_add_next_state_spec (g : List ℕ) (m : NextLetters) (w : ℤ)
    (hw : w = inner_total m) :
    (m.foldl (fun nd lc => add_next_state nd (g.drop 1 ++ [lc.1]) (Rat.divInt lc.2 w))
        (MarkovChainNode.mk g [])).ngram = g ∧
    (m.foldl (fun nd lc => add_next_state nd (g.drop 1 ++ [lc.1]) (Rat.divInt lc.2 w))
        (MarkovChainNode.mk g [])).next_states = stable_sorted_desc (edge_insertions g m) := by
  subst hw
  constructor
  · exact fold_add_next_state_ngram m _ _ _
  · rw [fold_add_next_state_states m (fun lc => g.drop 1 ++ [lc.1])
      (fun lc => Rat.divInt lc.2 (inner_total m)) (MarkovChainNode.mk g [])]
    rw [fold_sort_collapse _ [] (by simp [sorted_desc])]
    rfl

theorem setd_setd_collapse {α β : Type} [DecidableEq α] (k : α) (v v' : β) (l : List (α × β)) :
    setd k v' (setd k v l) = setd k v' l := by
  induction l with
  | nil => simp [setd]
  | cons p rest ih =>
    obtain ⟨a, b⟩ := p
    by_cases hak : a = k
    · subst hak
      rw [setd, if_pos rfl, setd, if_pos rfl, setd, if_pos rfl]
    · rw [setd, if_neg hak, setd, if_neg hak, setd, if_neg hak, ih]

/-- Forward run of the inner wiring loop: when all successor n-grams are
present and the weight is nonzero, it succeeds and performs the fold of
`add_next_state` on `g`'s node. -/
theorem wire_node_fold (m : NextLetters) (g : List ℕ) (w : ℤ) :
    ∀ (chain : Chain) (node : MarkovChainNode),
      (∀ lc ∈ m, (g.drop 1 ++ [lc.1]) ∈ keysd chain) →
      (m ≠ [] → w ≠ 0) →
      getd g chain = some node →
      m.foldlM (wire_edge g w) chain =
        some (setd g
          (m.foldl (fun nd lc => add_next_state nd (g.drop 1 ++ [lc.1]) (Rat.divInt lc.2 w)) node)
          chain) := by
  induction m with
  | nil =>
    intro chain node _ _ hnode
    simp only [List.foldlM_nil, List.foldl_nil]
    rw [setd_getd_id hnode]
    rfl
  | cons lc rest ih =>
    intro chain node htgt hw hnode
    have htgt0 : (g.drop 1 ++ [lc.1]) ∈ keysd chain := htgt lc (List.mem_cons_self lc rest)
    rw [mem_keysd_iff_getd_isSome] at htgt0
    obtain ⟨tnode, htnode⟩ := Option.isSome_iff_exists.mp htgt0
    have hw' : w ≠ 0 := hw (by simp)
    have hstep : wire_edge g w chain lc =
        some (setd g (add_next_state node (g.drop 1 ++ [lc.1]) (Rat.divInt lc.2 w)) chain) := by
      rw [wire_edge, htnode]
      rw [if_neg hw', hnode]
    simp only [List.foldlM_cons, hstep, Option.bind_eq_bind, Option.some_bind]
    set node' := add_next_state node (g.drop 1 ++ [lc.1]) (Rat.divInt lc.2 w) with hnode'
    set chain' := setd g node' chain with hchain'
    have hkeys : keysd chain' = keysd chain := by
      rw [hchain']
      apply keysd_setd_mem
      rw [mem_keysd_iff_getd_isSome, hnode]
      rfl
    have hnode2 : getd g chain' = some node' := by
      rw [hchain']
      exact getd_setd_self g node' chain
    have := ih chain' node' (fun lc' hlc' => by
        rw [hkeys]
        exact htgt lc' (List.mem_cons_of_mem _ hlc'))
      (fun _ => hw') hnode2
    rw [this]
    simp only [List.foldl_cons]
    congr 1
    rw [hchain', hnode']
    apply setd_setd_collapse


theorem wire_edge_some_inv {g : List ℕ} {w : ℤ} {chain c₁ : Chain} {lc : ℕ × ℤ}
    (h : wire_edge g w chain lc = some c₁) :
    (g.drop 1 ++ [lc.1]) ∈ keysd chain ∧ w ≠ 0 ∧ keysd c₁ = keysd chain := by
  unfold wire_edge at h
  cases htgt : getd (g.drop 1 ++ [lc.1]) chain with
  | none => rw [htgt] at h; cases h
  | some tnode =>
    rw [htgt] at h
    by_cases hw : w = 0
    · rw [if_pos hw] at h; cases h
    · rw [if_neg hw] at h
      cases hnode : getd g chain with
      | none => rw [hnode] at h; cases h
      | some node =>
        rw [hnode] at h
        injection h with h
        refine ⟨?_, hw, ?_⟩
        · rw [mem_keysd_iff_getd_isSome, htgt]; rfl
        · rw [← h]
          apply keysd_setd_mem
          rw [mem_keysd_iff_getd_isSome, hnode]; rfl

theorem wire_node_fold_inv (m : NextLetters) (g : List ℕ) (w : ℤ) :
    ∀ (chain chain' : Chain),
      m.foldlM (wire_edge g w) chain = some chain' →
      keysd chain' = keysd chain ∧
      (∀ lc ∈ m, (g.drop 1 ++ [lc.1]) ∈ keysd chain) ∧ (m ≠ [] → w ≠ 0) := by
  induction m with
  | nil =>
    intro chain chain' h
    simp only [List.foldlM_nil] at h
    injection h with h
    subst h
    exact ⟨rfl, by simp, by simp⟩
  | cons lc rest ih =>
    intro chain chain' h
    simp only [List.foldlM_cons, Option.bind_eq_bind] at h
    cases hstep : wire_edge g w chain lc with
    | none => rw [hstep] at h; cases h
    | some c₁ =>
      rw [hstep, Option.some_bind] at h
      obtain ⟨htgt, hw, hkeys⟩ := wire_edge_some_inv hstep
      obtain ⟨hkeys', htgts, _⟩ := ih c₁ chain' h
      refine ⟨hkeys'.trans hkeys, ?_, fun _ => hw⟩
      intro lc' hlc'
      rw [List.mem_cons] at hlc'
      rcases hlc' with hlc' | hlc'
      · exact hlc' ▸ htgt
      · rw [← hkeys]
        exact htgts lc' hlc'

/-- Forward run of the second pass over the remaining entries. -/
theorem build_fold (rest : CountTable) :
    ∀ (chain : Chain),
      (∀ gm ∈ rest, ∀ lc ∈ gm.2, (gm.1.drop 1 ++ [lc.1]) ∈ keysd chain) →
      (∀ gm ∈ rest, gm.2 ≠ [] → inner_total gm.2 ≠ 0) →
      (∀ gm ∈ rest, getd gm.1 chain = some (MarkovChainNode.mk gm.1 [])) →
      nodup_keys rest →
      ∃ chainF, rest.foldlM wire_node chain = some chainF ∧
        keysd chainF = keysd chain ∧
        (∀ gm ∈ rest, getd gm.1 chainF =
          some (MarkovChainNode.mk gm.1 (stable_sorted_desc (edge_insertions gm.1 gm.2)))) ∧
        (∀ g, g ∉ keysd rest → getd g chainF = getd g chain) := by
  induction rest with
  | nil =>
    intro chain _ _ _ _
    refine ⟨chain, rfl, rfl, by simp, fun _ _ => rfl⟩
  | cons gm rest' ih =>
    intro chain htgt hwz hnodes hnd
    obtain ⟨hndhead, hndtail⟩ := List.pairwise_cons.mp hnd
    have hgm0 : getd gm.1 chain = some (MarkovChainNode.mk gm.1 []) :=
      hnodes gm (List.mem_cons_self gm rest')
    have hstep := wire_node_fold gm.2 gm.1 (inner_total gm.2) chain
      (MarkovChainNode.mk gm.1 [])
      (htgt gm (List.mem_cons_self gm rest'))
      (hwz gm (List.mem_cons_self gm rest'))
      hgm0
    set nodeF := gm.2.foldl
      (fun nd lc => add_next_state nd (gm.1.drop 1 ++ [lc.1])
        (Rat.divInt lc.2 (inner_total gm.2)))
      (MarkovChainNode.mk gm.1 []) with hnodeF
    set chain₁ := setd gm.1 nodeF chain with hchain₁
    have hwire : wire_node chain gm = some chain₁ := hstep
    have hgmk : gm.1 ∈ keysd chain := by
      rw [mem_keysd_iff_getd_isSome, hgm0]; rfl
    have hkeys₁ : keysd chain₁ = keysd chain := by
      rw [hchain₁]
      exact keysd_setd_mem _ _ _ hgmk
    have hfr : ∀ g, g ≠ gm.1 → getd g chain₁ = getd g chain := by
      intro g hg
      rw [hchain₁]
      exact getd_setd_ne (fun h => hg h.symm) _ _
    obtain ⟨chainF, hrun, hkeysF, hdone, hframe⟩ := ih chain₁
      (fun gm' hgm' lc hlc => by
        rw [hkeys₁]
        exact htgt gm' (List.mem_cons_of_mem _ hgm') lc hlc)
      (fun gm' hgm' => hwz gm' (List.mem_cons_of_mem _ hgm'))
      (fun gm' hgm' => by
        rw [hfr gm'.1 (fun h => hndhead gm' hgm' h.symm)]
        exact hnodes gm' (List.mem_cons_of_mem _ hgm'))
      hndtail
    refine ⟨chainF, ?_, hkeysF.trans hkeys₁, ?_, ?_⟩
    · simp only [List.foldlM_cons, Option.bind_eq_bind, hwire, Option.some_bind]
      exact hrun
    · intro gm' hgm'
      rw [List.mem_cons] at hgm'
      rcases hgm' with hgm' | hgm'
      · subst hgm'
        have hnotin : gm'.1 ∉ keysd rest' := by
          intro hmem
          obtain ⟨q, hq, hq1⟩ := List.mem_map.mp hmem
          exact hndhead q hq hq1.symm
        rw [hframe gm'.1 hnotin, hchain₁, getd_setd_self, hnodeF]
        have hspec := fold_add_next_state_spec gm'.1 gm'.2 _ rfl
        congr 1
        cases hval : gm'.2.foldl
            (fun nd lc => add_next_state nd (gm'.1.drop 1 ++ [lc.1])
              (Rat.divInt lc.2 (inner_total gm'.2)))
            (MarkovChainNode.mk gm'.1 []) with
        | mk ng ns =>
          rw [hval] at hspec
          simp only at hspec
          rw [hspec.1, hspec.2]
      · exact hdone gm' hgm'
    · intro g hg
      rw [keysd_cons] at hg
      have hg1 : g ≠ gm.1 := fun h => hg (by simp [h])
      have hg2 : g ∉ keysd rest' := fun h => hg (List.mem_cons_of_mem _ h)
      rw [hframe g hg2, hfr g hg1]

/-- Inversion of the second pass: success implies all the per-entry guards
(in particular every referenced successor had a node). -/
theorem build_fold_inv (rest : CountTable) :
    ∀ (chain₀ chainF : Chain),
      rest.foldlM wire_node chain₀ = some chainF →
      keysd chainF = keysd chain₀ ∧
      ∀ gm ∈ rest,
        (∀ lc ∈ gm.2, (gm.1.drop 1 ++ [lc.1]) ∈ keysd chain₀) ∧
        (gm.2 ≠ [] → inner_total gm.2 ≠ 0) := by
  induction rest with
  | nil =>
    intro chain₀ chainF h
    simp only [List.foldlM_nil] at h
    injection h with h
    subst h
    exact ⟨rfl, by simp⟩
  | cons gm rest' ih =>
    intro chain₀ chainF h
    simp only [List.foldlM_cons, Option.bind_eq_bind] at h
    cases hstep : wire_node chain₀ gm with
    | none => rw [hstep] at h; cases h
    | some c₁ =>
      rw [hstep, Option.some_bind] at h
      obtain ⟨hkeys, htgts, hw⟩ := wire_node_fold_inv gm.2 gm.1 _ chain₀ c₁ hstep
      obtain ⟨hkeysF, hrest⟩ := ih c₁ chainF h
      refine ⟨hkeysF.trans hkeys, ?_⟩
      intro gm' hgm'
      rw [List.mem_cons] at hgm'
      rcases hgm' with hgm' | hgm'
      · subst hgm'
        exact ⟨htgts, hw⟩
      · obtain ⟨ht, hw'⟩ := hrest gm' hgm'
        exact ⟨fun lc hlc => hkeys ▸ ht lc hlc, hw'⟩

theorem keysd_init (tbl : CountTable) :
    keysd (tbl.map (fun gm => (gm.1, MarkovChainNode.mk gm.1 []))) = keysd tbl := by
  unfold keysd
  rw [List.map_map]
  rfl

theorem nodup_keys_init (tbl : CountTable) (hnd : nodup_keys tbl) :
    nodup_keys (tbl.map (fun gm => (gm.1, MarkovChainNode.mk gm.1 []))) := by
  unfold nodup_keys at hnd ⊢
  exact List.Pairwise.map _ (fun a b hab => hab) hnd

theorem getd_init {tbl : CountTable} {gm : List ℕ × NextLetters} (hnd : nodup_keys tbl)
    (hgm : gm ∈ tbl) :
    getd gm.1 (tbl.map (fun gm => (gm.1, MarkovChainNode.mk gm.1 []))) =
      some (MarkovChainNode.mk gm.1 []) := by
  have hmem : ((gm.1, MarkovChainNode.mk gm.1 []) : List ℕ × MarkovChainNode) ∈
      tbl.map (fun gm => (gm.1, MarkovChainNode.mk gm.1 [])) :=
    List.mem_map.mpr ⟨gm, hgm, rfl⟩
  exact getd_of_mem_nodup (nodup_keys_init tbl hnd) hmem

/-- Full characterization of a successful `build_markov_chain` run. -/
theorem build_markov_chain_spec (tbl : CountTable)
    (hnd : nodup_keys tbl)
    (hclosure : ∀ gm ∈ tbl, ∀ lc ∈ gm.2, (gm.1.drop 1 ++ [lc.1]) ∈ keysd tbl)
    (hw : ∀ gm ∈ tbl, gm.2 ≠ [] → inner_total gm.2 ≠ 0) :
    ∃ chain, build_markov_chain tbl = some chain ∧
      keysd chain = keysd tbl ∧
      ∀ gm ∈ tbl, getd gm.1 chain =
        some (MarkovChainNode.mk gm.1 (stable_sorted_desc (edge_insertions gm.1 gm.2))) := by
  obtain ⟨chainF, hrun, hkeys, hdone, _⟩ := build_fold tbl
    (tbl.map (fun gm => (gm.1, MarkovChainNode.mk gm.1 [])))
    (fun gm hgm lc hlc => by
      rw [keysd_init]
      exact hclosure gm hgm lc hlc)
    hw
    (fun gm hgm => getd_init hnd hgm)
    hnd
  exact ⟨chainF, hrun, hkeys.trans (keysd_init tbl), hdone⟩

/-- Inversion of `build_markov_chain`: success implies key preservation and
the per-entry guards. -/
theorem build_markov_chain_inv {tbl : CountTable} {chain : Chain}
    (h : build_markov_chain tbl = some chain) :
    keysd chain = keysd tbl ∧
    ∀ gm ∈ tbl,
      (∀ lc ∈ gm.2, (gm.1.drop 1 ++ [lc.1]) ∈ keysd tbl) ∧
      (gm.2 ≠ [] → inner_total gm.2 ≠ 0) := by
  obtain ⟨hkeys, hrest⟩ := build_fold_inv tbl _ chain h
  rw [keysd_init] at hkeys
  refine ⟨hkeys, ?_⟩
  intro gm hgm
  obtain ⟨ht, hw⟩ := hrest gm hgm
  exact ⟨fun lc hlc => (keysd_init tbl) ▸ ht lc hlc, hw⟩

theorem inner_total_nonneg {m : NextLetters} (h : ∀ lc ∈ m, 0 ≤ lc.2) :
    0 ≤ inner_total m := by
  induction m with
  | nil => simp [inner_total]
  | cons lc rest ih =>
    have h0 := h lc (List.mem_cons_self lc rest)
    have hrest := ih (fun lc' hlc' => h lc' (List.mem_cons_of_mem _ hlc'))
    simp only [inner_total, List.map_cons, List.sum_cons] at *
    omega

theorem inner_total_pos {m : NextLetters} (h : ∀ lc ∈ m, 1 ≤ lc.2) (hne : m ≠ []) :
    1 ≤ inner_total m := by
  cases m with
  | nil => exact absurd rfl hne
  | cons lc rest =>
    have h0 := h lc (List.mem_cons_self lc rest)
    have hrest : 0 ≤ inner_total rest :=
      inner_total_nonneg (fun lc' hlc' => le_trans (by omega) (h lc' (List.mem_cons_of_mem _ hlc')))
    simp only [inner_total, List.map_cons, List.sum_cons] at *
    omega

theorem cast_inner_total (m : NextLetters) :
    ((inner_total m : ℤ) : ℚ) = (m.map (fun lc => (lc.2 : ℚ))).sum := by
  induction m with
  | nil => simp [inner_total]
  | cons lc rest ih =>
    simp only [inner_total, List.map_cons, List.sum_cons] at *
    push_cast
    rw [← ih]
    push_cast
    ring

theorem sum_map_div (m : NextLetters) (w : ℚ) :
    (m.map (fun lc => (lc.2 : ℚ) / w)).sum = (m.map (fun lc => (lc.2 : ℚ))).sum / w := by
  induction m with
  | nil => simp
  | cons lc rest ih =>
    simp only [List.map_cons, List.sum_cons, ih]
    rw [add_div]

theorem perm_insert_last (x : Edge) (l : List Edge) :
    List.Perm (insert_last x l) (x :: l) := by
  induction l with
  | nil => simp [insert_last]
  | cons q rest ih =>
    by_cases hq : x.2 ≤ q.2
    · rw [insert_last, if_pos hq]
      exact List.Perm.trans (List.Perm.cons q ih) (List.Perm.swap x q rest)
    · rw [insert_last, if_neg hq]

theorem perm_stable_fold (xs : List Edge) :
    ∀ acc, List.Perm (xs.foldl (fun es x => insert_last x es) acc) (acc ++ xs) := by
  induction xs with
  | nil => intro acc; simp
  | cons x rest ih =>
    intro acc
    simp only [List.foldl_cons]
    have h1 := ih (insert_last x acc)
    have h2 : List.Perm (insert_last x acc ++ rest) ((x :: acc) ++ rest) :=
      List.Perm.append_right rest (perm_insert_last x acc)
    have h3 : List.Perm ((x :: acc) ++ rest) (acc ++ x :: rest) :=
      List.Perm.symm List.perm_middle
    exact (h1.trans h2).trans h3

theorem perm_stable_sorted_desc (xs : List Edge) :
    List.Perm (stable_sorted_desc xs) xs := by
  have := perm_stable_fold xs []
  simpa [stable_sorted_desc] using this

theorem sorted_stable_sorted_desc (xs : List Edge) : sorted_desc (stable_sorted_desc xs) := by
  have hgen : ∀ acc, sorted_desc acc →
      sorted_desc (xs.foldl (fun es x => insert_last x es) acc) := by
    induction xs with
    | nil => intro acc h; exact h
    | cons x rest ih =>
      intro acc h
      simp only [List.foldl_cons]
      exact ih _ (sorted_desc_insert_last h)
  exact hgen [] (by simp [sorted_desc])

theorem sum_stable_sorted_desc (xs : List Edge) :
    ((stable_sorted_desc xs).map Prod.snd).sum = (xs.map Prod.snd).sum :=
  ((perm_stable_sorted_desc xs).map Prod.snd).sum_eq

theorem sum_edge_insertions (g : List ℕ) (m : NextLetters)
    (hw : inner_total m ≠ 0) :
    ((edge_insertions g m).map Prod.snd).sum = 1 := by
  have hwq : ((inner_total m : ℤ) : ℚ) ≠ 0 := by
    rw [Int.cast_ne_zero]
    exact hw
  unfold edge_insertions
  rw [List.map_map]
  have h1 : (Prod.snd ∘ fun lc =>
      ((g.drop 1 ++ [lc.1], Rat.divInt lc.2 (inner_total m)) : Edge)) =
      fun lc : ℕ × ℤ => (lc.2 : ℚ) / ((inner_total m : ℤ) : ℚ) := by
    funext lc
    simp only [Function.comp_apply]
    rw [Rat.divInt_eq_div]
  rw [h1, sum_map_div, ← cast_inner_total, div_self hwq]

/-- Claim C4: for every table produced by `compute_ngram_counts(T, k)` with
`len(T) ≥ k`, every recorded (n-gram, successor) pair's sliding-window
successor n-gram is itself a key of the table, and `build_markov_chain`
succeeds (never raises the missing-state error). -/
theorem claim_C4_build_never_missing (text : List ℕ) (k : ℕ) (tbl : CountTable) (hk : 1 ≤ k)
    (hok : compute_ngram_counts text k = Except.ok tbl) :
    (∀ g c, table_mem tbl g c → g.drop 1 ++ [c] ∈ keysd tbl) ∧
    (build_markov_chain tbl).isSome := by
  have hwf := compute_wf hok
  refine ⟨fun g c h => compute_closure hok hk h, ?_⟩
  obtain ⟨chain, hrun, _, _⟩ := build_markov_chain_spec tbl hwf.1
    (fun gm hgm lc hlc => by
      have hmem : table_mem tbl gm.1 lc.1 :=
        ⟨gm.2, getd_of_mem_nodup hwf.1 hgm, getd_isSome_of_mem hlc⟩
      exact compute_closure hok hk hmem)
    (fun gm hgm hne => by
      have h1 : 1 ≤ inner_total gm.2 := inner_total_pos ((hwf.2 gm hgm).2.2) hne
      omega)
  rw [hrun]
  rfl

theorem claim_C4_witness :
    (1 ≤ 1 ∧ compute_ngram_counts [97, 98] 1 = Except.ok [([97], [(98, 1)]), ([98], [(97, 1)])]) ∧
    (build_markov_chain [([97], [(98, 1)]), ([98], [(97, 1)])]).isSome :=
  ⟨⟨le_refl 1, by rfl⟩,
    (claim_C4_build_never_missing [97, 98] 1 _ (le_refl 1) (by rfl)).2⟩

/-- Claim C6: in a chain graph successfully built from a count table (whose
entries, per the data-model invariant, have pairwise-distinct keys and a
nonempty successor dict), every node's outgoing probabilities sum to
exactly 1, its edge list is sorted by descending probability, and the edge
list equals the stable descending sort of the insertion sequence — ties
keep the order the source counts were iterated in. -/
theorem claim_C6_node_invariants (tbl : CountTable) (chain : Chain)
    (hnd : nodup_keys tbl)
    (hne : ∀ gm ∈ tbl, gm.2 ≠ [])
    (hbuild : build_markov_chain tbl = some chain) :
    ∀ gm ∈ tbl, ∃ node, getd gm.1 chain = some node ∧
      (node.next_states.map Prod.snd).sum = 1 ∧
      sorted_desc node.next_states ∧
      node.next_states = stable_sorted_desc (edge_insertions gm.1 gm.2) := by
  obtain ⟨hkeys, hguards⟩ := build_markov_chain_inv hbuild
  obtain ⟨chain', hrun, hkeys', hdone⟩ := build_markov_chain_spec tbl hnd
    (fun gm hgm lc hlc => (hguards gm hgm).1 lc hlc)
    (fun gm hgm => (hguards gm hgm).2)
  rw [hbuild] at hrun
  injection hrun with hrun
  subst hrun
  intro gm hgm
  refine ⟨MarkovChainNode.mk gm.1 (stable_sorted_desc (edge_insertions gm.1 gm.2)),
    hdone gm hgm, ?_, ?_, rfl⟩
  · rw [sum_stable_sorted_desc]
    exact sum_edge_insertions gm.1 gm.2 ((hguards gm hgm).2 (hne gm hgm))
  · exact sorted_stable_sorted_desc _

theorem claim_C6_witness :
    (nodup_keys [([97], [(97, 1), (98, 1)]), ([98], [(98, 1), (97, 1)])] ∧
      (∀ gm ∈ [([97], [(97, 1), (98, 1)]), ([98], [(98, 1), (97, 1)])],
        gm.2 ≠ ([] : NextLetters)) ∧
      build_markov_chain [([97], [(97, 1), (98, 1)]), ([98], [(98, 1), (97, 1)])] =
        some [([97], MarkovChainNode.mk [97] [([97], Rat.divInt 1 2), ([98], Rat.divInt 1 2)]),
              ([98], MarkovChainNode.mk [98] [([98], Rat.divInt 1 2), ([97], Rat.divInt 1 2)])]) ∧
    ∀ gm ∈ [([97], [(97, 1), (98, 1)]), ([98], [(98, 1), (97, 1)])],
      ∃ node, getd gm.1
          [([97], MarkovChainNode.mk [97] [([97], Rat.divInt 1 2), ([98], Rat.divInt 1 2)]),
           ([98], MarkovChainNode.mk [98] [([98], Rat.divInt 1 2), ([97], Rat.divInt 1 2)])] = some node ∧
        (node.next_states.map Prod.snd).sum = 1 ∧
        sorted_desc node.next_states ∧
        node.next_states = stable_sorted_desc (edge_insertions gm.1 gm.2) :=
  ⟨⟨by unfold nodup_keys; decide, by decide, by decide⟩,
    claim_C6_node_invariants _ _ (by unfold nodup_keys; decide) (by decide) (by decide)⟩

/-! ## Text generation (`get_next_state`, `generate_text`)

Randomness is made explicit: `draws t` is the value of the `t`-th call to
`random()` during the walk (assumed in `[0,1)`), and `choice_index` selects
the starting n-gram among the chain's keys (`random.choice` picks an index
uniformly; it raises on an empty list). -/

/-- `MarkovChainNode.get_next_state`: scan the edges in stored order,
subtracting each probability from the drawn value until it falls below an
edge's probability; return that edge's target n-gram, or fail (the raise at
the end of the scan) when the list is exhausted. -/
def get_next_state : List Edge → ℚ → Option (List ℕ)
  | [], _ => none
  | s :: rest, r => if r < s.2 then some s.1 else get_next_state rest (r - s.2)

/-- The `while text_length < length` loop of `generate_text`.  `fuel` is the
number of iterations left (`text_length` starts at the start node's n-gram
length and grows by one per iteration, so the loop runs exactly
`max 0 (length - text_length)` times); `t` counts the `random()` calls made
so far.  Each iteration selects a successor, resolves its node (Python holds
a direct object reference; the embedding resolves the stored key through the
graph dict) and appends the last character of its n-gram.  Returns the
produced character list together with the total number of draws. -/
def gen_loop (chain : Chain) (draws : ℕ → ℚ) :
    ℕ → ℕ → MarkovChainNode → List ℕ → Option (List ℕ × ℕ)
  | 0, t, _, acc => some (acc, t)
  | fuel + 1, t, node, acc =>
    match get_next_state node.next_states (draws t) with
    | none => none
    | some tgt =>
      match getd tgt chain with
      | none => none
      | some node' =>
        match node'.ngram.getLast? with
        | none => none
        | some c => gen_loop chain draws fuel (t + 1) node' (acc ++ [c])

/-- `generate_text(chain, length)`: pick a start node (via the supplied
choice index into the key list; failing on an empty chain as
`random.choice` does), emit its full n-gram, then walk until the text
reaches `length` characters. -/
def generate_text (chain : Chain) (draws : ℕ → ℚ) (choice_index : ℕ) (length : ℤ) :
    Option (List ℕ × ℕ) :=
  match (keysd chain).get? choice_index with
  | none => none
  | some g =>
    match getd g chain with
    | none => none
    | some node =>
      gen_loop chain draws ((length - (node.ngram.length : ℤ)).toNat) 0 node node.ngram

/-- The weighted scan resolves whenever the drawn value is below the total
probability mass of the edge list. -/
theorem get_next_state_total (l : List Edge) :
    ∀ r : ℚ, 0 ≤ r → r < (l.map Prod.snd).sum →
      ∃ tgt, get_next_state l r = some tgt ∧ tgt ∈ l.map Prod.fst := by
  induction l with
  | nil =>
    intro r h0 hs
    simp only [List.map_nil, List.sum_nil] at hs
    exact absurd (lt_of_le_of_lt h0 hs) (lt_irrefl 0)
  | cons s rest ih =>
    intro r h0 hs
    by_cases hr : r < s.2
    · exact ⟨s.1, by rw [get_next_state, if_pos hr], by simp⟩
    · have hsr : s.2 ≤ r := le_of_not_lt hr
      have h0' : 0 ≤ r - s.2 := by linarith
      have hs' : r - s.2 < (rest.map Prod.snd).sum := by
        simp only [List.map_cons, List.sum_cons] at hs
        linarith
      obtain ⟨tgt, hsel, hmem⟩ := ih (r - s.2) h0' hs'
      refine ⟨tgt, ?_, by simp [hmem]⟩
      rw [get_next_state, if_neg hr]
      exact hsel

/-- The structural invariant of a chain built from a `compute_ngram_counts`
table that the walk relies on. -/
def chain_ok (chain : Chain) (k : ℕ) : Prop :=
  ∀ g node, getd g chain = some node →
    node.ngram = g ∧ g.length = k ∧
    (node.next_states.map Prod.snd).sum = 1 ∧
    ∀ p ∈ node.next_states, (getd p.1 chain).isSome

theorem gen_loop_ok (chain : Chain) (k : ℕ) (hk : 1 ≤ k) (hok : chain_ok chain k)
    (draws : ℕ → ℚ) (hd : ∀ t, 0 ≤ draws t ∧ draws t < 1) :
    ∀ (fuel t : ℕ) (node : MarkovChainNode) (acc : List ℕ),
      (∃ g, getd g chain = some node) →
      ∃ out, gen_loop chain draws fuel t node acc = some (out, t + fuel) ∧
        out.length = acc.length + fuel := by
  intro fuel
  induction fuel with
  | zero =>
    intro t node acc _
    exact ⟨acc, by simp [gen_loop], by simp⟩
  | succ fuel ih =>
    intro t node acc hnode
    obtain ⟨g, hg⟩ := hnode
    obtain ⟨hng, hlen, hsum, htgts⟩ := hok g node hg
    obtain ⟨tgt, hsel, hmem⟩ := get_next_state_total node.next_states (draws t)
      (hd t).1 (by rw [hsum]; exact (hd t).2)
    obtain ⟨p, hp, hp1⟩ := List.mem_map.mp hmem
    have hsome : (getd tgt chain).isSome := hp1 ▸ htgts p hp
    obtain ⟨node', hnode'⟩ := Option.isSome_iff_exists.mp hsome
    obtain ⟨hng', hlen', _, _⟩ := hok tgt node' hnode'
    have hne : node'.ngram ≠ [] := by
      rw [hng']
      intro hnil
      rw [hnil] at hlen'
      simp at hlen'
      omega
    obtain ⟨c, hc⟩ := Option.isSome_iff_exists.mp
      (by rwa [List.getLast?_isSome] : (node'.ngram.getLast?).isSome)
    obtain ⟨out, hrun, hlen''⟩ := ih (t + 1) node' (acc ++ [c]) ⟨tgt, hnode'⟩
    refine ⟨out, ?_, ?_⟩
    · have harith : t + 1 + fuel = t + (fuel + 1) := by omega
      rw [harith] at hrun
      simp only [gen_loop, hsel, hnode', hc]
      exact hrun
    · rw [hlen'']
      simp
      omega

/-- A chain built from a computed table satisfies `chain_ok`. -/
theorem computed_chain_ok {text : List ℕ} {k : ℕ} {tbl : CountTable} {chain : Chain}
    (hk : 1 ≤ k) (hok : compute_ngram_counts text k = Except.ok tbl)
    (hbuild : build_markov_chain tbl = some chain) : chain_ok chain k := by
  have hwf := compute_wf hok
  obtain ⟨hkeys, hguards⟩ := build_markov_chain_inv hbuild
  obtain ⟨chain', hrun, _, hdone⟩ := build_markov_chain_spec tbl hwf.1
    (fun gm hgm lc hlc => (hguards gm hgm).1 lc hlc)
    (fun gm hgm => (hguards gm hgm).2)
  rw [hbuild] at hrun
  injection hrun with hrun
  subst hrun
  intro g node hg
  have hgk : g ∈ keysd chain := by
    rw [mem_keysd_iff_getd_isSome, hg]; rfl
  rw [hkeys] at hgk
  rw [mem_keysd_iff_getd_isSome] at hgk
  obtain ⟨m, hm⟩ := Option.isSome_iff_exists.mp hgk
  have hgm : ((g, m) : List ℕ × NextLetters) ∈ tbl := mem_of_getd hm
  have hnode := hdone (g, m) hgm
  rw [hg] at hnode
  injection hnode with hnode
  subst hnode
  refine ⟨rfl, ?_, ?_, ?_⟩
  · obtain ⟨lc, hlc⟩ := List.exists_mem_of_ne_nil m ((hwf.2 (g, m) hgm).2.1)
    have hmem : table_mem tbl g lc.1 := ⟨m, hm, getd_isSome_of_mem hlc⟩
    obtain ⟨i, _, hcirc⟩ := (compute_keys hok g).mp (key_of_table_mem hmem)
    rw [← hcirc, circ_ngram_length]
  · rw [sum_stable_sorted_desc]
    exact sum_edge_insertions g m ((hguards (g, m) hgm).2 ((hwf.2 (g, m) hgm).2.1))
  · intro p hp
    have hp' : p ∈ edge_insertions g m := (perm_stable_sorted_desc _).mem_iff.mp hp
    obtain ⟨lc, hlc, hplc⟩ := List.mem_map.mp hp'
    have htgt : (g.drop 1 ++ [lc.1]) ∈ keysd tbl := (hguards (g, m) hgm).1 lc hlc
    rw [← hkeys] at htgt
    rw [mem_keysd_iff_getd_isSome] at htgt
    rw [← hplc]
    exact htgt

/-- Master lemma for generation on a chain built from a computed table:
the walk terminates, makes exactly `(length - k)⁺` draws, and produces
`k + (length - k)⁺` characters, the first `k` being the full starting
n-gram. -/
theorem generate_text_spec {text : List ℕ} {k : ℕ} {tbl : CountTable} {chain : Chain}
    (hk : 1 ≤ k) (hok : compute_ngram_counts text k = Except.ok tbl)
    (hbuild : build_markov_chain tbl = some chain)
    (draws : ℕ → ℚ) (hd : ∀ t, 0 ≤ draws t ∧ draws t < 1)
    (si : ℕ) (hsi : si < (keysd chain).length) (length : ℤ) :
    ∃ g out, (keysd chain).get? si = some g ∧
      generate_text chain draws si length = some (out, (length - (k : ℤ)).toNat) ∧
      out.length = k + (length - (k : ℤ)).toNat ∧
      (length ≤ (k : ℤ) → out = g) := by
  have hco := computed_chain_ok hk hok hbuild
  have hget : (keysd chain).get? si = some ((keysd chain).get ⟨si, hsi⟩) :=
    List.get?_eq_get hsi
  set g := (keysd chain).get ⟨si, hsi⟩ with hgdef
  have hgmem : g ∈ keysd chain := by
    rw [hgdef]
    exact List.get_mem _ _ _
  rw [mem_keysd_iff_getd_isSome] at hgmem
  obtain ⟨node, hnode⟩ := Option.isSome_iff_exists.mp hgmem
  obtain ⟨hng, hglen, _, _⟩ := hco g node hnode
  have hfuel : ((length - (node.ngram.length : ℤ)).toNat) = (length - (k : ℤ)).toNat := by
    rw [hng, hglen]
  obtain ⟨out, hrun, hout⟩ := gen_loop_ok chain k hk hco draws hd
    ((length - (k : ℤ)).toNat) 0 node node.ngram ⟨g, hnode⟩
  refine ⟨g, out, hget, ?_, ?_, ?_⟩
  · rw [generate_text]
    simp only [hget, hnode, hfuel, hrun]
    simp
  · rw [hout, hng, hglen]
  · intro hle
    have hz : (length - (k : ℤ)).toNat = 0 := by omega
    rw [hz] at hrun
    rw [gen_loop] at hrun
    injection hrun with hrun
    have := congrArg Prod.fst hrun
    simp at this
    rw [← this, hng]

/-! ## Claims C10, C3, C9 -/

/-- Claim C10: on a chain built from a `compute_ngram_counts` table,
`generate_text` terminates for every integer target length (including
lengths ≤ 0 and < k), makes exactly `max 0 (length - k)` successor
selections (random draws in the walk), and produces exactly
`max k length` characters: the starting n-gram is always emitted in full,
never truncated.  Draws in `[0,1)` suffice: the weighted scan then always
resolves because every node's probabilities sum to 1. -/
theorem claim_C10_walk_termination (text : List ℕ) (k : ℕ) (tbl : CountTable) (chain : Chain)
    (hk : 1 ≤ k) (hok : compute_ngram_counts text k = Except.ok tbl)
    (hbuild : build_markov_chain tbl = some chain)
    (draws : ℕ → ℚ) (hd : ∀ t, 0 ≤ draws t ∧ draws t < 1)
    (si : ℕ) (hsi : si < (keysd chain).length) (length : ℤ) :
    ∃ out sel, generate_text chain draws si length = some (out, sel) ∧
      sel = (length - (k : ℤ)).toNat ∧
      out.length = k + sel ∧
      out.length = max k length.toNat := by
  obtain ⟨g, out, _, hrun, hlen, _⟩ :=
    generate_text_spec hk hok hbuild draws hd si hsi length
  refine ⟨out, (length - (k : ℤ)).toNat, hrun, rfl, hlen, ?_⟩
  rw [hlen]
  omega

theorem claim_C10_witness :
    ∃ out sel,
      generate_text [([97, 98], MarkovChainNode.mk [97, 98] [([98, 97], Rat.divInt 1 1)]),
          ([98, 97], MarkovChainNode.mk [98, 97] [([97, 98], Rat.divInt 1 1)])]
        (fun _ => 0) 0 (-3) = some (out, sel) ∧
      sel = ((-3 : ℤ) - (2 : ℤ)).toNat ∧
      out.length = 2 + sel ∧
      out.length = max 2 (-3 : ℤ).toNat :=
  claim_C10_walk_termination [97, 98] 2 [([97, 98], [(97, 1)]), ([98, 97], [(98, 1)])]
    [([97, 98], MarkovChainNode.mk [97, 98] [([98, 97], Rat.divInt 1 1)]),
      ([98, 97], MarkovChainNode.mk [98, 97] [([97, 98], Rat.divInt 1 1)])]
    (by omega) (by rfl) (by decide) (fun _ => 0)
    (fun t => ⟨show (0 : ℚ) ≤ 0 from le_refl 0, show (0 : ℚ) < 1 by decide⟩)
    0 (by decide) (-3)

/-- Claim C3, counterexample: `generate_text` does not clamp the output to
`n` characters when `n < k` — on the chain built from source `"ab"` with
k = 2, requesting 1 character yields the full 2-character starting n-gram. -/
theorem claim_C3_counterexample :
    compute_ngram_counts [97, 98] 2 = Except.ok [([97, 98], [(97, 1)]), ([98, 97], [(98, 1)])] ∧
    build_markov_chain [([97, 98], [(97, 1)]), ([98, 97], [(98, 1)])] =
      some [([97, 98], MarkovChainNode.mk [97, 98] [([98, 97], Rat.divInt 1 1)]),
            ([98, 97], MarkovChainNode.mk [98, 97] [([97, 98], Rat.divInt 1 1)])] ∧
    generate_text [([97, 98], MarkovChainNode.mk [97, 98] [([98, 97], Rat.divInt 1 1)]),
        ([98, 97], MarkovChainNode.mk [98, 97] [([97, 98], Rat.divInt 1 1)])]
      (fun _ => 0) 0 1 = some ([97, 98], 0) ∧
    ([97, 98] : List ℕ).length ≠ 1 :=
  ⟨by rfl, by decide, by decide, by decide⟩

/-- Claim C3 (amended): on a chain built from a computed table,
`generate_text` returns a string of length exactly `max k n` — equal to `n`
for every `n ≥ k`, but for `n ≤ k` the result is the FULL starting n-gram
(a key of the graph, `k` characters), not its first `n` characters: the
output is not clamped. -/
theorem claim_C3_generate_length (text : List ℕ) (k : ℕ) (tbl : CountTable) (chain : Chain)
    (hk : 1 ≤ k) (hok : compute_ngram_counts text k = Except.ok tbl)
    (hbuild : build_markov_chain tbl = some chain)
    (draws : ℕ → ℚ) (hd : ∀ t, 0 ≤ draws t ∧ draws t < 1)
    (si : ℕ) (hsi : si < (keysd chain).length) (length : ℤ) :
    ∃ g out, (keysd chain).get? si = some g ∧ g ∈ keysd chain ∧
      generate_text chain draws si length = some (out, (length - (k : ℤ)).toNat) ∧
      out.length = max k length.toNat ∧
      (length ≤ (k : ℤ) → out = g) := by
  obtain ⟨g, out, hget, hrun, hlen, hfull⟩ :=
    generate_text_spec hk hok hbuild draws hd si hsi length
  refine ⟨g, out, hget, List.get?_mem hget, hrun, ?_, hfull⟩
  rw [hlen]
  omega

theorem claim_C3_witness :
    ∃ g out,
      (keysd [([97, 98], MarkovChainNode.mk [97, 98] [([98, 97], Rat.divInt 1 1)]),
          ([98, 97], MarkovChainNode.mk [98, 97] [([97, 98], Rat.divInt 1 1)])]).get? 0 = some g ∧
      g ∈ keysd [([97, 98], MarkovChainNode.mk [97, 98] [([98, 97], Rat.divInt 1 1)]),
          ([98, 97], MarkovChainNode.mk [98, 97] [([97, 98], Rat.divInt 1 1)])] ∧
      generate_text [([97, 98], MarkovChainNode.mk [97, 98] [([98, 97], Rat.divInt 1 1)]),
          ([98, 97], MarkovChainNode.mk [98, 97] [([97, 98], Rat.divInt 1 1)])]
        (fun _ => 0) 0 1 = some (out, ((1 : ℤ) - (2 : ℤ)).toNat) ∧
      out.length = max 2 (1 : ℤ).toNat ∧
      ((1 : ℤ) ≤ (2 : ℤ) → out = g) :=
  claim_C3_generate_length [97, 98] 2 [([97, 98], [(97, 1)]), ([98, 97], [(98, 1)])]
    [([97, 98], MarkovChainNode.mk [97, 98] [([98, 97], Rat.divInt 1 1)]),
      ([98, 97], MarkovChainNode.mk [98, 97] [([97, 98], Rat.divInt 1 1)])]
    (by omega) (by rfl) (by decide) (fun _ => 0)
    (fun t => ⟨show (0 : ℚ) ≤ 0 from le_refl 0, show (0 : ℚ) < 1 by decide⟩)
    0 (by decide) 1

/-- Claim C9: on source `"abab"` with k = 1 the counts are exactly
a → {b: 2} and b → {a: 2} (single successors of probability 1), and
whenever the start node is `"a"`, a walk of length 6 yields exactly
`"ababab"` for arbitrary random draws in `[0,1)`. -/
theorem claim_C9_abab_scenario (draws : ℕ → ℚ) (hd : ∀ t, 0 ≤ draws t ∧ draws t < 1)
    (si : ℕ)
    (hsi : (keysd [([97], MarkovChainNode.mk [97] [([98], (1 : ℚ))]),
        ([98], MarkovChainNode.mk [98] [([97], (1 : ℚ))])]).get? si = some [97]) :
    compute_ngram_counts [97, 98, 97, 98] 1 = Except.ok [([97], [(98, 2)]), ([98], [(97, 2)])] ∧
    build_markov_chain [([97], [(98, 2)]), ([98], [(97, 2)])] =
      some [([97], MarkovChainNode.mk [97] [([98], (1 : ℚ))]),
            ([98], MarkovChainNode.mk [98] [([97], (1 : ℚ))])] ∧
    generate_text [([97], MarkovChainNode.mk [97] [([98], (1 : ℚ))]),
        ([98], MarkovChainNode.mk [98] [([97], (1 : ℚ))])] draws si 6 =
      some ([97, 98, 97, 98, 97, 98], 5) := by
  refine ⟨by rfl, by decide, ?_⟩
  have hsi0 : si = 0 := by
    rcases si with _ | si'
    · rfl
    · rcases si' with _ | si''
      · exact absurd hsi (by decide)
      · have hnone : (keysd [([97], MarkovChainNode.mk [97] [([98], (1 : ℚ))]),
            ([98], MarkovChainNode.mk [98] [([97], (1 : ℚ))])]).get? (si'' + 1 + 1) = none := by
          apply List.get?_eq_none.mpr
          simp [keysd]
        rw [hnone] at hsi
        cases hsi
  subst hsi0
  have hselA : ∀ t, get_next_state [([98], (1 : ℚ))] (draws t) = some [98] := by
    intro t
    simp only [get_next_state]
    rw [if_pos (hd t).2]
  have hselB : ∀ t, get_next_state [([97], (1 : ℚ))] (draws t) = some [97] := by
    intro t
    simp only [get_next_state]
    rw [if_pos (hd t).2]
  have stepA : ∀ fuel t acc,
      gen_loop [([97], MarkovChainNode.mk [97] [([98], (1 : ℚ))]),
          ([98], MarkovChainNode.mk [98] [([97], (1 : ℚ))])] draws (fuel + 1) t
        (MarkovChainNode.mk [97] [([98], (1 : ℚ))]) acc =
      gen_loop [([97], MarkovChainNode.mk [97] [([98], (1 : ℚ))]),
          ([98], MarkovChainNode.mk [98] [([97], (1 : ℚ))])] draws fuel (t + 1)
        (MarkovChainNode.mk [98] [([97], (1 : ℚ))]) (acc ++ [98]) := by
    intro fuel t acc
    simp only [gen_loop, hselA t]
    rfl
  have stepB : ∀ fuel t acc,
      gen_loop [([97], MarkovChainNode.mk [97] [([98], (1 : ℚ))]),
          ([98], MarkovChainNode.mk [98] [([97], (1 : ℚ))])] draws (fuel + 1) t
        (MarkovChainNode.mk [98] [([97], (1 : ℚ))]) acc =
      gen_loop [([97], MarkovChainNode.mk [97] [([98], (1 : ℚ))]),
          ([98], MarkovChainNode.mk [98] [([97], (1 : ℚ))])] draws fuel (t + 1)
        (MarkovChainNode.mk [97] [([98], (1 : ℚ))]) (acc ++ [97]) := by
    intro fuel t acc
    simp only [gen_loop, hselB t]
    rfl
  calc generate_text [([97], MarkovChainNode.mk [97] [([98], (1 : ℚ))]),
          ([98], MarkovChainNode.mk [98] [([97], (1 : ℚ))])] draws 0 6
      = gen_loop [([97], MarkovChainNode.mk [97] [([98], (1 : ℚ))]),
          ([98], MarkovChainNode.mk [98] [([97], (1 : ℚ))])] draws 5 0
        (MarkovChainNode.mk [97] [([98], (1 : ℚ))]) [97] := by rfl
    _ = gen_loop [([97], MarkovChainNode.mk [97] [([98], (1 : ℚ))]),
          ([98], MarkovChainNode.mk [98] [([97], (1 : ℚ))])] draws 4 1
        (MarkovChainNode.mk [98] [([97], (1 : ℚ))]) [97, 98] := stepA 4 0 [97]
    _ = gen_loop [([97], MarkovChainNode.mk [97] [([98], (1 : ℚ))]),
          ([98], MarkovChainNode.mk [98] [([97], (1 : ℚ))])] draws 3 2
        (MarkovChainNode.mk [97] [([98], (1 : ℚ))]) [97, 98, 97] := stepB 3 1 [97, 98]
    _ = gen_loop [([97], MarkovChainNode.mk [97] [([98], (1 : ℚ))]),
          ([98], MarkovChainNode.mk [98] [([97], (1 : ℚ))])] draws 2 3
        (MarkovChainNode.mk [98] [([97], (1 : ℚ))]) [97, 98, 97, 98] := stepA 2 2 [97, 98, 97]
    _ = gen_loop [([97], MarkovChainNode.mk [97] [([98], (1 : ℚ))]),
          ([98], MarkovChainNode.mk [98] [([97], (1 : ℚ))])] draws 1 4
        (MarkovChainNode.mk [97] [([98], (1 : ℚ))]) [97, 98, 97, 98, 97] :=
          stepB 1 3 [97, 98, 97, 98]
    _ = gen_loop [([97], MarkovChainNode.mk [97] [([98], (1 : ℚ))]),
          ([98], MarkovChainNode.mk [98] [([97], (1 : ℚ))])] draws 0 5
        (MarkovChainNode.mk [98] [([97], (1 : ℚ))]) [97, 98, 97, 98, 97, 98] :=
          stepA 0 4 [97, 98, 97, 98, 97]
    _ = some ([97, 98, 97, 98, 97, 98], 5) := by rfl

theorem claim_C9_witness :
    ((∀ t : ℕ, 0 ≤ (fun _ : ℕ => (0 : ℚ)) t ∧ (fun _ : ℕ => (0 : ℚ)) t < 1) ∧
      (keysd [([97], MarkovChainNode.mk [97] [([98], (1 : ℚ))]),
          ([98], MarkovChainNode.mk [98] [([97], (1 : ℚ))])]).get? 0 = some [97]) ∧
    generate_text [([97], MarkovChainNode.mk [97] [([98], (1 : ℚ))]),
        ([98], MarkovChainNode.mk [98] [([97], (1 : ℚ))])] (fun _ => (0 : ℚ)) 0 6 =
      some ([97, 98, 97, 98, 97, 98], 5) :=
  ⟨⟨fun t => ⟨show (0 : ℚ) ≤ 0 from le_refl 0, show (0 : ℚ) < 1 by decide⟩, by decide⟩,
    (claim_C9_abab_scenario (fun _ => (0 : ℚ))
      (fun t => ⟨show (0 : ℚ) ≤ 0 from le_refl 0, show (0 : ℚ) < 1 by decide⟩) 0
      (by decide)).2.2⟩

/-! ## The model codec (`write_ngram_counts_to_file`, `read_ngram_counts_from_file`)

The model file is line-oriented text whose every line is consumed through
`split()`, so it is modelled as a list of lines, each a list of
whitespace-free tokens (`List Char`).  Reading past the end of the file
yields `""` whose `split()` is `[]`, hence missing lines are empty token
lists (`List.getD _ []`).  Python `int()` on a split token is modelled by
`parse_int_tok` (optional sign, decimal digits, CPython's single-underscore
digit separators; surrounding whitespace cannot occur in a token), `str()`
on a nonnegative int by `nat_to_tok`, and `chr`'s validity range is
`0..1114111`. -/

/-- A whitespace-free token of the model file. -/
abbrev Tok := List Char

/-- The numeric value of an ASCII decimal digit. -/
def digit_val (c : Char) : Option ℕ :=
  if 48 ≤ c.toNat ∧ c.toNat ≤ 57 then some (c.toNat - 48) else none

/-- Digit consumption of `int()`: underscores are allowed only singly and
only between digits. -/
def consume_digits : List Char → ℕ → Option ℕ
  | [], acc => some acc
  | c :: rest, acc =>
    if c = '_' then
      match rest with
      | [] => none
      | c2 :: r2 =>
        match digit_val c2 with
        | none => none
        | some d => consume_digits r2 (acc * 10 + d)
    else
      match digit_val c with
      | none => none
      | some d => consume_digits rest (acc * 10 + d)

/-- An unsigned decimal numeral: a leading digit, then digits with optional
single underscore separators. -/
def parse_unsigned : List Char → Option ℕ
  | [] => none
  | c :: rest =>
    match digit_val c with
    | none => none
    | some d => consume_digits rest d

/-- Python `int()` applied to one split token. -/
def parse_int_tok (s : Tok) : Option ℤ :=
  match s with
  | [] => none
  | c :: rest =>
    if c = '+' then (parse_unsigned rest).map (fun n => (n : ℤ))
    else if c = '-' then (parse_unsigned rest).map (fun n => -(n : ℤ))
    else (parse_unsigned (c :: rest)).map (fun n => (n : ℤ))

/-- Most-significant-first decimal digits of `n` (empty for 0); the fuel
argument bounds the recursion and `n` itself always suffices. -/
def nat_digits_aux : ℕ → ℕ → List Char
  | 0, _ => []
  | fuel + 1, n =>
    if n = 0 then []
    else nat_digits_aux fuel (n / 10) ++ [Char.ofNat (48 + n % 10)]

/-- Python `str()` of a nonnegative int. -/
def nat_to_tok (n : ℕ) : Tok :=
  if n = 0 then ['0'] else nat_digits_aux n n

/-- Python `str()` of an int. -/
def int_to_tok (z : ℤ) : Tok :=
  if z < 0 then '-' :: nat_to_tok (-z).toNat else nat_to_tok z.toNat

theorem digit_val_ofNat (d : ℕ) (hd : d < 10) :
    digit_val (Char.ofNat (48 + d)) = some d := by
  interval_cases d <;> decide

theorem digit_char_ne_underscore (d : ℕ) (hd : d < 10) : Char.ofNat (48 + d) ≠ '_' := by
  interval_cases d <;> decide

theorem nat_digits_aux_zero (fuel : ℕ) : nat_digits_aux fuel 0 = [] := by
  cases fuel <;> rfl

theorem nat_digits_aux_digits (fuel : ℕ) :
    ∀ n, ∀ c ∈ nat_digits_aux fuel n, (digit_val c).isSome ∧ c ≠ '_' := by
  induction fuel with
  | zero => intro n c hc; simp [nat_digits_aux] at hc
  | succ fuel ih =>
    intro n c hc
    rw [nat_digits_aux] at hc
    by_cases hn : n = 0
    · rw [if_pos hn] at hc; simp at hc
    · rw [if_neg hn] at hc
      rw [List.mem_append] at hc
      rcases hc with hc | hc
      · exact ih (n / 10) c hc
      · rw [List.mem_singleton] at hc
        subst hc
        have hlt : n % 10 < 10 := Nat.mod_lt _ (by omega)
        constructor
        · rw [digit_val_ofNat _ hlt]; rfl
        · exact digit_char_ne_underscore _ hlt

theorem consume_digits_all (l : List Char)
    (hl : ∀ c ∈ l, (digit_val c).isSome ∧ c ≠ '_') :
    ∀ acc, consume_digits l acc =
      some (l.foldl (fun a c => a * 10 + ((digit_val c).getD 0)) acc) := by
  induction l with
  | nil => intro acc; rfl
  | cons c rest ih =>
    intro acc
    have hc := hl c (List.mem_cons_self c rest)
    obtain ⟨d, hd⟩ := Option.isSome_iff_exists.mp hc.1
    rw [consume_digits.eq_def]
    simp only [if_neg hc.2, hd]
    simp only [List.foldl_cons, hd, Option.getD_some]
    exact ih (fun c' hc' => hl c' (List.mem_cons_of_mem _ hc')) (acc * 10 + d)

theorem nat_digits_aux_foldl (fuel : ℕ) :
    ∀ n, n ≤ fuel → ∀ acc,
      (nat_digits_aux fuel n).foldl (fun a c => a * 10 + ((digit_val c).getD 0)) acc =
        acc * 10 ^ (nat_digits_aux fuel n).length + n := by
  induction fuel with
  | zero =>
    intro n hn acc
    interval_cases n
    simp [nat_digits_aux]
  | succ fuel ih =>
    intro n hn acc
    rw [nat_digits_aux]
    by_cases hn0 : n = 0
    · rw [if_pos hn0, hn0]
      simp
    · rw [if_neg hn0]
      have hdiv : n / 10 ≤ fuel := by omega
      have hlt : n % 10 < 10 := Nat.mod_lt _ (by omega)
      rw [List.foldl_append, ih (n / 10) hdiv acc]
      simp only [List.foldl_cons, List.foldl_nil, digit_val_ofNat _ hlt, Option.getD_some,
        List.length_append, List.length_singleton]
      have hx : n / 10 * 10 + n % 10 = n := by omega
      rw [pow_succ]
      have hring : (acc * 10 ^ (nat_digits_aux fuel (n / 10)).length + n / 10) * 10 + n % 10 =
          acc * (10 ^ (nat_digits_aux fuel (n / 10)).length * 10) + (n / 10 * 10 + n % 10) := by
        ring
      rw [hring, hx]

theorem nat_digits_aux_ne_nil (n : ℕ) (hn : 0 < n) : nat_digits_aux n n ≠ [] := by
  obtain ⟨m, rfl⟩ : ∃ m, n = m + 1 := ⟨n - 1, by omega⟩
  rw [nat_digits_aux, if_neg (by omega)]
  simp

theorem parse_unsigned_all_digits (l : List Char) (hne : l ≠ [])
    (hl : ∀ c ∈ l, (digit_val c).isSome ∧ c ≠ '_') :
    parse_unsigned l = some (l.foldl (fun a c => a * 10 + ((digit_val c).getD 0)) 0) := by
  cases l with
  | nil => exact absurd rfl hne
  | cons c rest =>
    have hc := hl c (List.mem_cons_self c rest)
    obtain ⟨d, hd⟩ := Option.isSome_iff_exists.mp hc.1
    simp only [parse_unsigned, hd]
    rw [consume_digits_all rest (fun c' hc' => hl c' (List.mem_cons_of_mem _ hc')) d]
    simp [hd]

theorem parse_unsigned_nat_to_tok (n : ℕ) : parse_unsigned (nat_to_tok n) = some n := by
  by_cases hn : n = 0
  · subst hn; rfl
  · rw [nat_to_tok, if_neg hn]
    rw [parse_unsigned_all_digits _ (nat_digits_aux_ne_nil n (by omega))
      (nat_digits_aux_digits n n)]
    rw [nat_digits_aux_foldl n n (le_refl n) 0]
    simp

theorem nat_to_tok_head_digit (n : ℕ) :
    ∀ c ∈ nat_to_tok n, (digit_val c).isSome ∧ c ≠ '_' := by
  by_cases hn : n = 0
  · subst hn
    intro c hc
    rw [nat_to_tok] at hc
    simp at hc
    subst hc
    exact ⟨by decide, by decide⟩
  · rw [nat_to_tok, if_neg hn]
    exact nat_digits_aux_digits n n

theorem parse_int_nat_to_tok (n : ℕ) : parse_int_tok (nat_to_tok n) = some (n : ℤ) := by
  have hne : nat_to_tok n ≠ [] := by
    by_cases hn : n = 0
    · subst hn; decide
    · rw [nat_to_tok, if_neg hn]
      exact nat_digits_aux_ne_nil n (by omega)
  cases hl : nat_to_tok n with
  | nil => exact absurd hl hne
  | cons c rest =>
    have hc : (digit_val c).isSome ∧ c ≠ '_' := by
      have := nat_to_tok_head_digit n c
      rw [hl] at this
      exact this (List.mem_cons_self c rest)
    have hplus : c ≠ '+' := by
      intro h
      rw [h] at hc
      exact absurd hc.1 (by decide)
    have hminus : c ≠ '-' := by
      intro h
      rw [h] at hc
      exact absurd hc.1 (by decide)
    rw [parse_int_tok, if_neg hplus, if_neg hminus, ← hl, parse_unsigned_nat_to_tok]
    rfl

theorem parse_int_to_tok (z : ℤ) : parse_int_tok (int_to_tok z) = some z := by
  by_cases hz : z < 0
  · rw [int_to_tok, if_pos hz]
    rw [parse_int_tok, if_neg (by decide), if_pos rfl, parse_unsigned_nat_to_tok]
    simp
    omega
  · rw [int_to_tok, if_neg hz]
    rw [parse_int_nat_to_tok]
    congr 1
    omega

/-- `string_to_decimal`: one token per character, each the decimal numeral
of its code point (the file writes them space-joined; `split()` recovers
exactly this token list). -/
def string_to_decimal (text : List ℕ) : List Tok := text.map nat_to_tok

/-- `string_from_decimal` over already-split tokens: `int()` each token and
`chr` the value (failing outside `chr`'s range `0..1114111`). -/
def string_from_decimal (toks : List Tok) : Option (List ℕ) :=
  toks.mapM (fun t =>
    match parse_int_tok t with
    | none => none
    | some z => if 0 ≤ z ∧ z ≤ 1114111 then some z.toNat else none)

theorem string_from_to_decimal (text : List ℕ) (h : ∀ c ∈ text, c ≤ 1114111) :
    string_from_decimal (string_to_decimal text) = some text := by
  induction text with
  | nil => rfl
  | cons c rest ih =>
    have hc := h c (List.mem_cons_self c rest)
    have hrest := ih (fun c' hc' => h c' (List.mem_cons_of_mem _ hc'))
    simp only [string_to_decimal, string_from_decimal, List.map_cons, List.mapM_cons]
    rw [parse_int_nat_to_tok]
    simp only [string_to_decimal, string_from_decimal] at hrest
    simp only [hrest, Option.bind_eq_bind, Option.some_bind]
    rw [if_pos (⟨by omega, by omega⟩ : 0 ≤ (c : ℤ) ∧ (c : ℤ) ≤ 1114111)]
    simp

/-- Python `l[i]` on a list: a nonnegative index must be below the length,
a negative index counts from the end and must not reach below zero;
anything else raises `IndexError`. -/
def pyindex {α : Type} (l : List α) (i : ℤ) : Option α :=
  if 0 ≤ i then (if i < (l.length : ℤ) then l.get? i.toNat else none)
  else (if 0 ≤ (l.length : ℤ) + i then l.get? ((l.length : ℤ) + i).toNat else none)

/-- Python `l[0:e]`: a nonnegative end clamps to the length, a negative end
counts from the end of the list (empty below zero). -/
def pyslice_to {α : Type} (l : List α) (e : ℤ) : List α :=
  if 0 ≤ e then l.take e.toNat else l.take ((l.length : ℤ) + e).toNat

/-- One data line of `write_ngram_counts_to_file`: the n-gram's character
codes, the number of letter-count pairs, then the (code, count) pairs, all
as decimal tokens. -/
def write_entry (gm : List ℕ × NextLetters) : List Tok :=
  string_to_decimal gm.1 ++ [nat_to_tok gm.2.length] ++
    (gm.2.map (fun lc => [nat_to_tok lc.1, int_to_tok lc.2])).flatten

/-- `write_ngram_counts_to_file`: header line `k N`, then one line per
n-gram. -/
def write_ngram_counts_to_file (ngrams : CountTable) (ngram_length : ℤ) : List (List Tok) :=
  [int_to_tok ngram_length, nat_to_tok ngrams.length] :: ngrams.map write_entry

/-- One letter-count pair of a data line (loop body over `j`): read the
letter token at `1 + ngram_length + j*2` via `string_from_decimal` (a single
split token decodes to a single character; the dead `_` arm is
unreachable), the count token right after it via `int()`, and store them.
Any missing token or unparseable/out-of-range value fails (Python's
`IndexError`/`ValueError`). -/
def read_letter_step (ngram_info : List Tok) (ngram_length : ℤ)
    (next_letters : NextLetters) (j : ℕ) : Option NextLetters := do
  let ltok ← pyindex ngram_info (1 + ngram_length + (j : ℤ) * 2)
  let lchars ← string_from_decimal [ltok]
  match lchars with
  | [letter] => do
    let ctok ← pyindex ngram_info (1 + ngram_length + ((j : ℤ) * 2 + 1))
    let count ← parse_int_tok ctok
    pure (setd letter count next_letters)
  | _ => none

/-- One data line of the model file (loop body over `i`): line `i + 1` of
the file (reading past the end yields an empty token list), its first
`ngram_length` tokens decoded as the n-gram, the following token as the
number of letter-count pairs, then that many pairs. -/
def read_entry (lines : List (List Tok)) (ngram_length : ℤ) (ngrams : CountTable)
    (i : ℕ) : Option CountTable := do
  let ngram_info := lines.getD (i + 1) []
  let ngram_value ← string_from_decimal (pyslice_to ngram_info ngram_length)
  let nl_tok ← pyindex ngram_info ngram_length
  let next_letter_count ← parse_int_tok nl_tok
  let next_letters ← (List.range next_letter_count.toNat).foldlM
    (read_letter_step ngram_info ngram_length) ([] : NextLetters)
  pure (setd ngram_value next_letters ngrams)

/-- `read_ngram_counts_from_file`: parse the header (both fields must be
ints and there must be exactly two of them — the destructuring assignment),
then decode as many data lines as the header declares, rebuilding the dicts
in file order. -/
def read_ngram_counts_from_file (lines : List (List Tok)) : Option (CountTable × ℤ) := do
  let hvals ← (lines.getD 0 []).mapM parse_int_tok
  match hvals with
  | [ngram_length, ngram_count] =>
    let ngrams ← (List.range ngram_count.toNat).foldlM (read_entry lines ngram_length)
      ([] : CountTable)
    pure (ngrams, ngram_length)
  | _ => none

theorem get?_append_plus {α : Type} (l₁ l₂ : List α) (n : ℕ) :
    (l₁ ++ l₂).get? (l₁.length + n) = l₂.get? n := by
  induction l₁ with
  | nil => simp
  | cons a rest ih =>
    simp only [List.cons_append, List.length_cons]
    have harith : rest.length + 1 + n = (rest.length + n) + 1 := by omega
    rw [harith, List.get?_cons_succ]
    exact ih

theorem get?_append_lt {α : Type} (l₁ l₂ : List α) (n : ℕ) (h : n < l₁.length) :
    (l₁ ++ l₂).get? n = l₁.get? n := by
  induction l₁ generalizing n with
  | nil => simp at h
  | cons a rest ih =>
    cases n with
    | zero => rfl
    | succ n => simpa using ih n (by simpa using h)

theorem pyindex_nonneg {α : Type} (l : List α) (n : ℕ) (h : n < l.length) :
    pyindex l (n : ℤ) = l.get? n := by
  unfold pyindex
  rw [if_pos (by omega), if_pos (by omega)]
  simp

theorem pyindex_nil {α : Type} (i : ℤ) : pyindex ([] : List α) i = none := by
  unfold pyindex
  by_cases h : 0 ≤ i
  · rw [if_pos h, if_neg (by simp; omega)]
  · rw [if_neg h, if_neg (by simp; omega)]

theorem take_append_len {α : Type} (l₁ l₂ : List α) : (l₁ ++ l₂).take l₁.length = l₁ := by
  induction l₁ with
  | nil => simp
  | cons a rest ih =>
    simp only [List.cons_append, List.length_cons, List.take_succ_cons]
    rw [ih]

theorem setd_append_fresh {α β : Type} [DecidableEq α] (k : α) (v : β) (l : List (α × β))
    (h : k ∉ keysd l) : setd k v l = l ++ [(k, v)] := by
  induction l with
  | nil => rfl
  | cons p rest ih =>
    obtain ⟨a, b⟩ := p
    rw [keysd_cons] at h
    have hak : a ≠ k := fun hak => h (by simp [hak])
    rw [setd, if_neg hak, List.cons_append, ih (fun hk => h (List.mem_cons_of_mem _ hk))]

theorem flat_pair_length {γ : Type} (m : NextLetters) (f g : ℕ × ℤ → γ) :
    ((m.map (fun lc => [f lc, g lc])).flatten).length = 2 * m.length := by
  induction m with
  | nil => rfl
  | cons lc rest ih =>
    simp only [List.map_cons, List.flatten_cons, List.length_append, List.length_cons,
      List.length_nil, ih, List.length_cons]
    omega

theorem flat_pair_get {γ : Type} (m : NextLetters) (f g : ℕ × ℤ → γ) :
    ∀ j, j < m.length →
      ((m.map (fun lc => [f lc, g lc])).flatten).get? (2 * j) = (m.get? j).map f ∧
      ((m.map (fun lc => [f lc, g lc])).flatten).get? (2 * j + 1) = (m.get? j).map g := by
  induction m with
  | nil => intro j hj; simp at hj
  | cons lc rest ih =>
    intro j hj
    cases j with
    | zero => simp
    | succ j =>
      have hj' : j < rest.length := by simpa using hj
      have h2 : 2 * (j + 1) = (2 * j) + 2 := by omega
      have h2' : 2 * (j + 1) + 1 = (2 * j + 1) + 2 := by omega
      simp only [List.map_cons, List.flatten_cons, h2, h2']
      constructor
      · have := (ih j hj').1
        simpa using this
      · have := (ih j hj').2
        simpa using this

theorem string_to_decimal_length (text : List ℕ) :
    (string_to_decimal text).length = text.length := by
  simp [string_to_decimal]

theorem read_letter_step_eq (info : List Tok) (kz : ℤ) (j : ℕ) (lc : ℕ × ℤ)
    (acc : NextLetters)
    (h1 : pyindex info (1 + kz + (j : ℤ) * 2) = some (nat_to_tok lc.1))
    (h2 : pyindex info (1 + kz + ((j : ℤ) * 2 + 1)) = some (int_to_tok lc.2))
    (hc : lc.1 ≤ 1114111) :
    read_letter_step info kz acc j = some (setd lc.1 lc.2 acc) := by
  unfold read_letter_step
  rw [h1]
  have hsf : string_from_decimal [nat_to_tok lc.1] = some [lc.1] := by
    have := string_from_to_decimal [lc.1] (by
      intro c hc'
      rw [List.mem_singleton] at hc'
      omega)
    simpa [string_to_decimal] using this
  simp only [Option.bind_eq_bind, Option.some_bind, hsf]
  rw [h2]
  simp only [Option.some_bind, parse_int_to_tok]
  rfl

theorem take_key_not_mem {α β : Type} {m : List (α × β)} (hnd : nodup_keys m) {n : ℕ}
    (hn : n < m.length) :
    (m.get ⟨n, hn⟩).1 ∉ keysd (m.take n) := by
  intro hmem
  obtain ⟨p, hp, hp1⟩ := List.mem_map.mp hmem
  obtain ⟨⟨i, hi⟩, hpi⟩ := List.get_of_mem hp
  have hilen : i < m.length := lt_of_lt_of_le hi (by simp)
  have hin : i < n := by
    have : (m.take n).length = min n m.length := by simp
    omega
  have hget : (m.take n).get ⟨i, hi⟩ = m.get ⟨i, hilen⟩ := by
    simp [List.get_eq_getElem, List.getElem_take]
  have hpair := List.pairwise_iff_get.mp hnd ⟨i, hilen⟩ ⟨n, hn⟩ (by simpa using hin)
  apply hpair
  rw [← hpi, hget] at hp1
  rw [hp1]

theorem read_letters_reconstruct (m : NextLetters) (info : List Tok) (kz : ℤ)
    (hnd : nodup_keys m)
    (hget : ∀ j, j < m.length →
      pyindex info (1 + kz + (j : ℤ) * 2) = (m.get? j).map (fun lc => nat_to_tok lc.1) ∧
      pyindex info (1 + kz + ((j : ℤ) * 2 + 1)) = (m.get? j).map (fun lc => int_to_tok lc.2))
    (hchars : ∀ lc ∈ m, lc.1 ≤ 1114111) :
    ∀ n, n ≤ m.length →
      (List.range n).foldlM (read_letter_step info kz) ([] : NextLetters) =
        some (m.take n) := by
  intro n
  induction n with
  | zero => intro _; rfl
  | succ n ih =>
    intro hn
    have hn' : n < m.length := by omega
    have hlc : m.get? n = some (m.get ⟨n, hn'⟩) := List.get?_eq_get hn'
    set lc := m.get ⟨n, hn'⟩ with hlcdef
    obtain ⟨hg1, hg2⟩ := hget n hn'
    rw [hlc] at hg1 hg2
    simp only [Option.map_some'] at hg1 hg2
    rw [List.range_succ, List.foldlM_append, ih (by omega)]
    show (some (m.take n) >>= fun acc => List.foldlM (read_letter_step info kz) acc [n]) = _
    rw [Option.bind_eq_bind, Option.some_bind, List.foldlM_cons]
    rw [read_letter_step_eq info kz n lc (m.take n) hg1 hg2
      (hchars lc (List.get_mem m n hn'))]
    rw [Option.bind_eq_bind, Option.some_bind]
    simp only [List.foldlM_nil]
    rw [setd_append_fresh _ _ _ (take_key_not_mem hnd hn')]
    rw [List.take_succ]
    have hlc2 : m[n]? = some lc := by
      rw [← List.get?_eq_getElem?]
      exact hlc
    rw [hlc2]
    rfl

theorem write_entry_assoc (gm : List ℕ × NextLetters) :
    write_entry gm = string_to_decimal gm.1 ++
      ([nat_to_tok gm.2.length] ++
        (gm.2.map (fun lc => [nat_to_tok lc.1, int_to_tok lc.2])).flatten) := by
  rw [write_entry, List.append_assoc]

theorem write_entry_length (gm : List ℕ × NextLetters) :
    (write_entry gm).length = gm.1.length + 1 + 2 * gm.2.length := by
  rw [write_entry]
  simp only [List.length_append, string_to_decimal_length, List.length_singleton,
    flat_pair_length]

theorem entry_slice (gm : List ℕ × NextLetters) :
    pyslice_to (write_entry gm) ((gm.1.length : ℤ)) = string_to_decimal gm.1 := by
  rw [pyslice_to, if_pos (by omega), write_entry_assoc]
  have h1 : ((gm.1.length : ℤ)).toNat = (string_to_decimal gm.1).length := by
    rw [string_to_decimal_length]
    omega
  rw [h1, take_append_len]

theorem entry_count_tok (gm : List ℕ × NextLetters) :
    pyindex (write_entry gm) ((gm.1.length : ℤ)) = some (nat_to_tok gm.2.length) := by
  have hlt : gm.1.length < (write_entry gm).length := by
    rw [write_entry_length]
    omega
  rw [pyindex_nonneg _ _ hlt, write_entry_assoc]
  have h0 : gm.1.length = (string_to_decimal gm.1).length + 0 := by
    rw [string_to_decimal_length]
    omega
  rw [h0, get?_append_plus]
  rfl

theorem entry_pair_toks (gm : List ℕ × NextLetters) (j : ℕ) (hj : j < gm.2.length) :
    pyindex (write_entry gm) (1 + (gm.1.length : ℤ) + (j : ℤ) * 2) =
      (gm.2.get? j).map (fun lc => nat_to_tok lc.1) ∧
    pyindex (write_entry gm) (1 + (gm.1.length : ℤ) + ((j : ℤ) * 2 + 1)) =
      (gm.2.get? j).map (fun lc => int_to_tok lc.2) := by
  have hlen := write_entry_length gm
  have hpre : (string_to_decimal gm.1 ++ [nat_to_tok gm.2.length]).length =
      gm.1.length + 1 := by
    simp [string_to_decimal_length]
  obtain ⟨hf1, hf2⟩ := flat_pair_get gm.2 (fun lc => nat_to_tok lc.1)
    (fun lc => int_to_tok lc.2) j hj
  constructor
  · have hidx : (1 + (gm.1.length : ℤ) + (j : ℤ) * 2) =
        ((gm.1.length + 1 + 2 * j : ℕ) : ℤ) := by push_cast; ring
    have hlt : gm.1.length + 1 + 2 * j < (write_entry gm).length := by omega
    rw [hidx, pyindex_nonneg _ _ hlt, write_entry]
    have harr : gm.1.length + 1 + 2 * j =
        (string_to_decimal gm.1 ++ [nat_to_tok gm.2.length]).length + 2 * j := by
      rw [hpre]
    rw [harr, get?_append_plus, hf1]
  · have hidx : (1 + (gm.1.length : ℤ) + ((j : ℤ) * 2 + 1)) =
        ((gm.1.length + 1 + (2 * j + 1) : ℕ) : ℤ) := by push_cast; ring
    have hlt : gm.1.length + 1 + (2 * j + 1) < (write_entry gm).length := by omega
    rw [hidx, pyindex_nonneg _ _ hlt, write_entry]
    have harr : gm.1.length + 1 + (2 * j + 1) =
        (string_to_decimal gm.1 ++ [nat_to_tok gm.2.length]).length + (2 * j + 1) := by
      rw [hpre]
    rw [harr, get?_append_plus, hf2]

theorem read_entry_eq (lines : List (List Tok)) (kz : ℤ) (gm : List ℕ × NextLetters)
    (i : ℕ) (acc : CountTable)
    (hline : lines.getD (i + 1) [] = write_entry gm)
    (hk : (gm.1.length : ℤ) = kz)
    (hndm : nodup_keys gm.2)
    (hchars1 : ∀ c ∈ gm.1, c ≤ 1114111)
    (hchars2 : ∀ lc ∈ gm.2, lc.1 ≤ 1114111) :
    read_entry lines kz acc i = some (setd gm.1 gm.2 acc) := by
  subst hk
  simp only [read_entry, hline]
  rw [entry_slice, string_from_to_decimal gm.1 hchars1]
  simp only [Option.bind_eq_bind, Option.some_bind]
  rw [entry_count_tok]
  simp only [Option.some_bind]
  rw [parse_int_nat_to_tok]
  simp only [Option.some_bind]
  have hrange : ((gm.2.length : ℤ)).toNat = gm.2.length := by omega
  rw [hrange]
  rw [read_letters_reconstruct gm.2 (write_entry gm) ((gm.1.length : ℤ)) hndm
    (fun j hj => entry_pair_toks gm j hj) hchars2 gm.2.length (le_refl _)]
  simp only [Option.some_bind, List.take_length]
  rfl

theorem getD_cons_succ {α : Type} (a : α) (l : List α) (n : ℕ) (d : α) :
    (a :: l).getD (n + 1) d = l.getD n d := by
  simp [List.getD]

theorem read_file_reconstruct (tbl : CountTable) (kz : ℤ)
    (hnd : nodup_keys tbl)
    (hlen : ∀ gm ∈ tbl, (gm.1.length : ℤ) = kz)
    (hinner : ∀ gm ∈ tbl, nodup_keys gm.2)
    (hchars : ∀ gm ∈ tbl, (∀ c ∈ gm.1, c ≤ 1114111) ∧ ∀ lc ∈ gm.2, lc.1 ≤ 1114111) :
    ∀ n, n ≤ tbl.length →
      (List.range n).foldlM (read_entry (write_ngram_counts_to_file tbl kz) kz)
        ([] : CountTable) = some (tbl.take n) := by
  intro n
  induction n with
  | zero => intro _; rfl
  | succ n ih =>
    intro hn
    have hn' : n < tbl.length := by omega
    have hgm : tbl.get? n = some (tbl.get ⟨n, hn'⟩) := List.get?_eq_get hn'
    set gm := tbl.get ⟨n, hn'⟩ with hgmdef
    have hmem : gm ∈ tbl := List.get_mem tbl n hn'
    have hline : (write_ngram_counts_to_file tbl kz).getD (n + 1) [] = write_entry gm := by
      rw [write_ngram_counts_to_file, getD_cons_succ]
      have : (tbl.map write_entry).get? n = some (write_entry gm) := by
        rw [List.get?_map, hgm]
        rfl
      rw [List.getD_eq_getD_get?, this]
      rfl
    rw [List.range_succ, List.foldlM_append, ih (by omega)]
    show (some (tbl.take n) >>=
      fun acc => List.foldlM (read_entry (write_ngram_counts_to_file tbl kz) kz) acc [n]) = _
    rw [Option.bind_eq_bind, Option.some_bind, List.foldlM_cons]
    rw [read_entry_eq (write_ngram_counts_to_file tbl kz) kz gm n (tbl.take n) hline
      (hlen gm hmem) (hinner gm hmem) (hchars gm hmem).1 (hchars gm hmem).2]
    rw [Option.bind_eq_bind, Option.some_bind]
    simp only [List.foldlM_nil]
    rw [setd_append_fresh _ _ _ (take_key_not_mem hnd hn')]
    rw [List.take_succ]
    have hgm2 : tbl[n]? = some gm := by
      rw [← List.get?_eq_getElem?]
      exact hgm
    rw [hgm2]
    rfl

/-- Claim C1: decoding the encoding of `(table, k)` reconstructs exactly the
same pair, for every count table whose keys are `k`-character n-grams with
code points in `chr`'s full range (0 through 1114111, so control characters,
whitespace and the maximum representable character all round-trip) and
whose dicts have pairwise-distinct keys (the Python dict invariant). -/
theorem claim_C1_roundtrip (tbl : CountTable) (k : ℤ)
    (hnd : nodup_keys tbl)
    (hlen : ∀ gm ∈ tbl, (gm.1.length : ℤ) = k)
    (hinner : ∀ gm ∈ tbl, nodup_keys gm.2)
    (hchars : ∀ gm ∈ tbl, (∀ c ∈ gm.1, c ≤ 1114111) ∧ ∀ lc ∈ gm.2, lc.1 ≤ 1114111) :
    read_ngram_counts_from_file (write_ngram_counts_to_file tbl k) = some (tbl, k) := by
  unfold read_ngram_counts_from_file
  have hheader : ((write_ngram_counts_to_file tbl k).getD 0 []).mapM parse_int_tok =
      some [k, (tbl.length : ℤ)] := by
    show ([int_to_tok k, nat_to_tok tbl.length]).mapM parse_int_tok = _
    simp only [List.mapM_cons, List.mapM_nil, parse_int_to_tok, parse_int_nat_to_tok,
      Option.bind_eq_bind, Option.some_bind]
    rfl
  rw [hheader]
  simp only [Option.bind_eq_bind, Option.some_bind]
  have hN : ((tbl.length : ℤ)).toNat = tbl.length := by omega
  rw [hN]
  rw [read_file_reconstruct tbl k hnd hlen hinner hchars tbl.length (le_refl _)]
  simp only [Option.some_bind, List.take_length]
  rfl

theorem claim_C1_witness :
    (nodup_keys [([0], [(32, 1)]), ([1114111], [(0, 2), (1114111, 7)])] ∧
      (∀ gm ∈ [([0], [(32, 1)]), ([1114111], [(0, 2), (1114111, 7)])],
        ((gm.1.length : ℤ) = 1 ∧ nodup_keys gm.2) ∧
        (∀ c ∈ gm.1, c ≤ 1114111) ∧ ∀ lc ∈ gm.2, lc.1 ≤ 1114111)) ∧
    read_ngram_counts_from_file
      (write_ngram_counts_to_file [([0], [(32, 1)]), ([1114111], [(0, 2), (1114111, 7)])] 1) =
      some ([([0], [(32, 1)]), ([1114111], [(0, 2), (1114111, 7)])], 1) :=
  ⟨⟨by unfold nodup_keys; decide, by unfold nodup_keys; decide⟩,
    claim_C1_roundtrip [([0], [(32, 1)]), ([1114111], [(0, 2), (1114111, 7)])] 1
      (by unfold nodup_keys; decide) (by decide) (by unfold nodup_keys; decide) (by decide)⟩

theorem pyslice_nil {α : Type} (e : ℤ) : pyslice_to ([] : List α) e = [] := by
  unfold pyslice_to
  by_cases h : 0 ≤ e
  · rw [if_pos h, List.take_nil]
  · rw [if_neg h, List.take_nil]

theorem foldlM_mem_none {α β : Type} (f : β → α → Option β) {l : List α} {a : α}
    (ha : a ∈ l) (hf : ∀ b, f b a = none) : ∀ b₀, l.foldlM f b₀ = none := by
  induction ha with
  | head rest =>
    intro b₀
    rw [List.foldlM_cons, hf b₀]
    rfl
  | tail q hmem ih =>
    intro b₀
    rw [List.foldlM_cons]
    cases hq : f b₀ q with
    | none => rfl
    | some b₁ =>
      rw [Option.bind_eq_bind, Option.some_bind]
      exact ih b₁

/-- A data line that is past the end of the file (an empty token list)
always fails: its successor-count token cannot be indexed. -/
theorem read_entry_missing (lines : List (List Tok)) (kz : ℤ) (i : ℕ)
    (hline : lines.getD (i + 1) [] = []) : ∀ acc, read_entry lines kz acc i = none := by
  intro acc
  simp only [read_entry, hline, pyslice_nil]
  rw [show string_from_decimal ([] : List Tok) = some [] from rfl]
  simp only [Option.bind_eq_bind, Option.some_bind]
  rw [pyindex_nil]
  rfl

/-- Claim C7 (amended): decoding fails whenever the header's declared
n-gram count exceeds the number of data lines actually present (missing
lines are past-the-end reads and abort decoding), and whenever the header
line itself does not consist of exactly two integer fields.  (A header
count smaller than the number of data lines present does not fail: surplus
lines are ignored; see the counterexample.) -/
theorem claim_C7_malformed_decode :
    (∀ (lines : List (List Tok)) (k N : ℤ),
      (lines.getD 0 []).mapM parse_int_tok = some [k, N] →
      (lines.length : ℤ) - 1 < N →
      read_ngram_counts_from_file lines = none) ∧
    (∀ lines : List (List Tok),
      (∀ a b : ℤ, (lines.getD 0 []).mapM parse_int_tok ≠ some [a, b]) →
      read_ngram_counts_from_file lines = none) := by
  constructor
  · intro lines k N hheader hcount
    unfold read_ngram_counts_from_file
    rw [hheader]
    simp only [Option.bind_eq_bind, Option.some_bind]
    have hne : lines ≠ [] := by
      intro h
      subst h
      have hnil : ([] : List ℤ) = [k, N] := by
        injection (show some ([] : List ℤ) = some [k, N] from hheader)
      cases hnil
    have hpos : 1 ≤ lines.length := by
      cases lines with
      | nil => exact absurd rfl hne
      | cons a rest => simp
    have hi₀ : lines.length - 1 ∈ List.range N.toNat := List.mem_range.mpr (by omega)
    have hmiss : lines.getD (lines.length - 1 + 1) [] = [] := by
      apply List.getD_eq_default
      omega
    rw [foldlM_mem_none (read_entry lines k) hi₀ (read_entry_missing lines k _ hmiss) []]
    rfl
  · intro lines hbad
    unfold read_ngram_counts_from_file
    cases hm : (lines.getD 0 []).mapM parse_int_tok with
    | none => rfl
    | some hv =>
      rw [Option.bind_eq_bind, Option.some_bind]
      match hv with
      | [] => rfl
      | [a] => rfl
      | [a, b] => exact absurd hm (hbad a b)
      | a :: b :: c :: t => rfl

/-- Claim C7, counterexample: a file whose header declares 0 n-grams but
which contains 1 data line decodes successfully (the surplus line is
silently ignored), so a count/data-line mismatch does not always fail. -/
theorem claim_C7_counterexample :
    read_ngram_counts_from_file [[['1'], ['0']], [['9', '7'], ['1'], ['9', '8'], ['1']]] =
      some (([] : CountTable), 1) ∧
    ([[['1'], ['0']], [['9', '7'], ['1'], ['9', '8'], ['1']]] : List (List Tok)).length - 1 = 1 ∧
    (1 : ℕ) ≠ 0 :=
  ⟨by rfl, by decide, by decide⟩

theorem claim_C7_witness :
    read_ngram_counts_from_file [[['1'], ['2']], [['9', '7'], ['1'], ['9', '8'], ['1']]] =
      none ∧
    read_ngram_counts_from_file [[['x']]] = none :=
  ⟨claim_C7_malformed_decode.1 [[['1'], ['2']], [['9', '7'], ['1'], ['9', '8'], ['1']]] 1 2
      (by rfl) (by decide),
    claim_C7_malformed_decode.2 [[['x']]] (by
      intro a b h
      rw [show ((([[['x']]] : List (List Tok)).getD 0 []).mapM parse_int_tok) = none from rfl]
        at h
      cases h)⟩

end MarkovText
